import Mathlib

/-!
Verification development for the `dafny-tasker` repository.

The Python sources under `src/dafny_tasker/` are shallowly embedded below:
pure text-manipulating functions (`focus.py`, the pure core of `minimize.py`)
become Lean functions over `List String` documents, external collaborators
(the Dafny LSP server queried by `lsp.py` / `lsp_outline.py` / `lsp_def.py`
and the `dafny verify` oracle subprocess) become explicit function parameters,
and Python loops become fueled structural recursions whose fuel is the exact
trip count of the loop, so every definition is executable.

Conventions:
- a document is a `List String` of lines (the result of Python
  `str.splitlines()`), plus, where needed, a `Bool` recording whether the
  original text ended with a trailing newline;
- line indices are 0-based `Nat`s, exactly as in the source;
- Python slice clamping is mirrored by `List.take`/`List.drop`.
-/

namespace DafnyTasker

/-- Whitespace test matching Python's `\s` class and `str.strip()` on the
ASCII inputs this repository processes (space, tab, newline, carriage
return, form feed, vertical tab). -/
def isPySpace (c : Char) : Bool :=
  c == ' ' || c == '\t' || c == '\n' || c == '\r' || c == '\x0c' || c == '\x0b'

/-- Python `\w` (word character) on ASCII input: letters, digits, underscore. -/
def isWordChar (c : Char) : Bool :=
  c.isAlpha || c.isDigit || c == '_'

/-- First character class of the identifier pattern `[A-Za-z_]`. -/
def isIdentStart (c : Char) : Bool :=
  c.isAlpha || c == '_'

/-- `line.count` of the opening brace, as used throughout `focus.py`. -/
def openCount (s : String) : Nat := s.data.countP (· == '\x7b')

/-- `line.count` of the closing brace. -/
def closeCount (s : String) : Nat := s.data.countP (· == '\x7d')

/-- Per-line brace balance: opening minus closing braces. -/
def braceDelta (s : String) : Int := (openCount s : Int) - closeCount s

/-- `"\n".join(lines)`, defined recursively so its equations are direct. -/
def joinLines : List String → String
  | [] => ""
  | [l] => l
  | l :: ls => l ++ "\n" ++ joinLines ls

/-- `" ".join(lines)` (used for header text in `_axiomatize_other_lemmas`). -/
def joinSp : List String → String
  | [] => ""
  | [l] => l
  | l :: ls => l ++ " " ++ joinSp ls

/-- Python `str.strip()`: drop leading and trailing whitespace. -/
def pyStrip (s : String) : String :=
  String.mk (((s.data.dropWhile isPySpace).reverse.dropWhile isPySpace).reverse)

/-- Python `str.rstrip()`: drop trailing whitespace. -/
def pyRstrip (s : String) : String :=
  String.mk ((s.data.reverse.dropWhile isPySpace).reverse)

/-- Python `s.split("\n")`: exact inverse of `joinLines` on newline-free
line lists (`"".split("\n") = [""]`). -/
def splitNLCore : List Char → List Char → List String
  | [], acc => [String.mk acc.reverse]
  | c :: cs, acc =>
    if c = '\n' then String.mk acc.reverse :: splitNLCore cs []
    else splitNLCore cs (c :: acc)

/-- See `splitNLCore`. -/
def splitNL (s : String) : List String := splitNLCore s.data []

/-- Python `str.splitlines()` restricted to `\n` separators (the only
terminator the embedded code ever produces): a trailing newline does not
open a final empty line, and `"".splitlines() = []`. -/
def pySplitAux : List Char → List Char → List String
  | acc, [] => if acc.isEmpty then [] else [String.mk acc.reverse]
  | acc, c :: rest =>
    if c = '\n' then String.mk acc.reverse :: pySplitAux [] rest
    else pySplitAux (c :: acc) rest

/-- See `pySplitAux`. -/
def pySplitlines (s : String) : List String := pySplitAux [] s.data

/-- Whether a string ends with a line terminator (`text.endswith("\n")`). -/
def endsWithNL (s : String) : Bool := s.data.getLast? == some '\n'

/-! ### `_brace_body_bounds` (focus.py lines 24-45) -/

/-- First loop of `_brace_body_bounds`: scan `j` upward while `j < stop`,
returning the first line whose opening-brace count exceeds its closing-brace
count.  The fuel argument is `stop - j`, the exact number of remaining
iterations, so this fueled recursion coincides with the Python `for` loop. -/
def findBraceOpenAux (lines : List String) : Nat → Nat → Option Nat
  | _, 0 => none
  | j, n + 1 =>
    if closeCount (lines.getD j "") < openCount (lines.getD j "") then some j
    else findBraceOpenAux lines (j + 1) n

/-- `for j in range(start_line, stop)` search for the body-opening line. -/
def findBraceOpen (lines : List String) (j stop : Nat) : Option Nat :=
  findBraceOpenAux lines j (stop - j)

/-- Second loop of `_brace_body_bounds`: accumulate the running brace depth
from the opening line and return the first index where it is zero.  Fuel is
again the exact remaining trip count `stop - k`. -/
def scanDepthAux (lines : List String) : Nat → Nat → Int → Option Nat
  | _, 0, _ => none
  | k, n + 1, depth =>
    let d := depth + braceDelta (lines.getD k "")
    if d = 0 then some k else scanDepthAux lines (k + 1) n d

/-- `for k in range(brace_open, stop)` depth scan. -/
def scanDepth (lines : List String) (k stop : Nat) (depth : Int) : Option Nat :=
  scanDepthAux lines k (stop - k) depth

/-- `_brace_body_bounds(lines, start_line, end_line)`: find the
brace-delimited body of a lemma/method inside the window
`[start_line, min(end_line + 1, len(lines)))`. -/
def braceBodyBounds (lines : List String) (startLine endLine : Nat) :
    Option (Nat × Nat) :=
  match findBraceOpen lines startLine (min (endLine + 1) lines.length) with
  | none => none
  | some braceOpen =>
    match scanDepth lines braceOpen (min (endLine + 1) lines.length) 0 with
    | none => none
    | some k => some (braceOpen, k)

/-- Running brace-depth counter over the `n` lines starting at line `b`. -/
def braceDepthN (lines : List String) (b n : Nat) : Int :=
  ((List.range n).map (fun j => braceDelta (lines.getD (b + j) ""))).sum

/-- Running brace-depth counter accumulated line by line from line `b`
through line `m` inclusive (the quantity the spec's `findBodySpan` contract
talks about). -/
def braceDepth (lines : List String) (b m : Nat) : Int :=
  braceDepthN lines b (m + 1 - b)

/-- Spec-side notion for C1: a syntactically balanced body region inside the
search window, in the exact sense the scanner can report one — a line `b` in
the window with more opening than closing braces, and a line `k ≥ b` still in
the window at which the running depth from `b` returns to zero. -/
def BalancedRegion (lines : List String) (startLine endLine b k : Nat) : Prop :=
  startLine ≤ b ∧ b ≤ k ∧ k < min (endLine + 1) lines.length ∧
  closeCount (lines.getD b "") < openCount (lines.getD b "") ∧
  braceDepth lines b k = 0

/-- Concrete three-line balanced body used by witnesses. -/
def exBody : List String := ["\x7b", "x", "\x7d"]

/-! ### Regular expressions of focus.py (lines 12-15)

The module-level patterns `ASSERT_RE`, `CALL_RE`, `CALC_RE` and `FORALL_RE`
are embedded as classical regular expressions matched with Brzozowski
derivatives.  `re.match` anchored at position 0 with a trailing `$` becomes a
whole-string match; without `$` it becomes an "is some prefix matched" test.
The one non-regular construct, the word boundary `assert\b`, is expanded
away: since the pattern continues `.*;`, at least one character follows
`assert` and the boundary is equivalent to that first character being either
the `;` itself or any non-word character. -/

inductive RE where
  | eps : RE
  | pred : (Char → Bool) → RE
  | cat : RE → RE → RE
  | alt : RE → RE → RE
  | star : RE → RE

/-- Whether the regular expression accepts the empty string. -/
def RE.nullable : RE → Bool
  | .eps => true
  | .pred _ => false
  | .cat a b => a.nullable && b.nullable
  | .alt a b => a.nullable || b.nullable
  | .star _ => true

/-- Brzozowski derivative with respect to one character. -/
def RE.deriv : RE → Char → RE
  | .eps, _ => .pred (fun _ => false)
  | .pred p, c => if p c then .eps else .pred (fun _ => false)
  | .cat a b, c =>
    if a.nullable then .alt (.cat (a.deriv c) b) (b.deriv c)
    else .cat (a.deriv c) b
  | .alt a b, c => .alt (a.deriv c) (b.deriv c)
  | .star r, c => .cat (r.deriv c) (.star r)

/-- Whole-string match. -/
def RE.matchList : RE → List Char → Bool
  | r, [] => r.nullable
  | r, c :: cs => (r.deriv c).matchList cs

/-- Does the expression match some prefix of the character list? -/
def RE.matchPrefixList : RE → List Char → Bool
  | r, [] => r.nullable
  | r, c :: cs => r.nullable || (r.deriv c).matchPrefixList cs

/-- `re.fullmatch`-style test on a string. -/
def RE.fullMatch (r : RE) (s : String) : Bool := r.matchList s.data

/-- `re.match`-style test (match anchored at the start, any prefix). -/
def RE.prefMatch (r : RE) (s : String) : Bool := r.matchPrefixList s.data

/-- Single literal character. -/
def RE.chr (c : Char) : RE := .pred (· == c)

/-- Literal string. -/
def RE.ofStr (s : String) : RE := s.data.foldr (fun c r => RE.cat (RE.chr c) r) RE.eps

/-- `(...)?` optional group. -/
def RE.opt (r : RE) : RE := RE.alt RE.eps r

/-- `\s`. -/
def reSp : RE := RE.pred isPySpace

/-- `\s*`. -/
def reSps : RE := RE.star reSp

/-- `.` (the lines matched never contain a newline, so `.` is any char). -/
def reAny : RE := RE.pred (fun _ => true)

/-- `.*`. -/
def reAnys : RE := RE.star reAny

/-- `\W`, a non-word character. -/
def reNonWord : RE := RE.pred (fun c => !(isWordChar c))

/-- `[A-Za-z_]\w*`, an identifier. -/
def reIdent : RE := RE.cat (RE.pred isIdentStart) (RE.star (RE.pred isWordChar))

/-- Common tail `\s*(?://.*)?$` of `ASSERT_RE` and `CALL_RE`. -/
def reTailW : RE := RE.cat reSps (RE.opt (RE.cat (RE.ofStr "//") reAnys))

/-- Leading group `(?:.*\{\s*)?` shared by `ASSERT_RE` and `CALL_RE`. -/
def reOpenPrefix : RE := RE.opt (RE.cat reAnys (RE.cat (RE.chr '\x7b') reSps))

/-- Suffix `\b.*;\s*(?://.*)?$` after the literal `assert`: the word
boundary is equivalent to the next character being `;` or non-word. -/
def reAssertTail : RE :=
  RE.alt (RE.cat (RE.chr ';') reTailW)
    (RE.cat reNonWord (RE.cat reAnys (RE.cat (RE.chr ';') reTailW)))

/-- `ASSERT_RE = ^\s*(?:.*\{\s*)?assert\b.*;\s*(?://.*)?$` (focus.py:12). -/
def ASSERT_RE : RE :=
  RE.cat reSps (RE.cat reOpenPrefix (RE.cat (RE.ofStr "assert") reAssertTail))

/-- `ASSERT_RE.match(line)` truthiness. -/
def assertMatch (s : String) : Bool := ASSERT_RE.fullMatch s

/-- `CALL_RE = ^\s*(?:.*\{\s*)?(?P<callee>[A-Za-z_]\w*)\s*\(.*\)\s*;\s*(?://.*)?$`
(focus.py:13). -/
def CALL_RE : RE :=
  RE.cat reSps (RE.cat reOpenPrefix (RE.cat reIdent (RE.cat reSps
    (RE.cat (RE.chr '(') (RE.cat reAnys (RE.cat (RE.chr ')')
      (RE.cat reSps (RE.cat (RE.chr ';') reTailW))))))))

/-- `CALL_RE.match(line)` truthiness. -/
def callMatch (s : String) : Bool := CALL_RE.fullMatch s

/-- The optional comparison operator of `CALC_RE`. -/
def reCalcOp : RE :=
  RE.alt (RE.ofStr "==") (RE.alt (RE.ofStr ">=") (RE.alt (RE.ofStr "<=")
    (RE.alt (RE.ofStr ">") (RE.ofStr "<"))))

/-- `CALC_RE = ^\s*calc\s*(==|>=|<=|>|<)?\s*\{` (focus.py:14), unanchored at
the right, hence a prefix match. -/
def CALC_RE : RE :=
  RE.cat reSps (RE.cat (RE.ofStr "calc") (RE.cat reSps
    (RE.cat (RE.opt reCalcOp) (RE.cat reSps (RE.chr '\x7b')))))

/-- `CALC_RE.match(line)` truthiness. -/
def calcMatch (s : String) : Bool := CALC_RE.prefMatch s

/-- `FORALL_RE = ^\s*forall\s+` (focus.py:15), a prefix match. -/
def FORALL_RE : RE :=
  RE.cat reSps (RE.cat (RE.ofStr "forall") (RE.cat reSp reSps))

/-- `FORALL_RE.match(line)` truthiness. -/
def forallMatch (s : String) : Bool := FORALL_RE.prefMatch s

/-! ### `_header_kind_name` (focus.py lines 75-79)

`re.search(r'\b(lemma|method)\s+([A-Za-z_]\w*)', hdr + " " + hdr2)` is a
leftmost search: positions are tried left to right, the alternation in
source order, and the identifier group is the maximal word-character run.
It is implemented as a direct scanner that carries the previous character
to decide the word boundary. -/

/-- Greedy `\s+([A-Za-z_]\w*)` right after a matched keyword. -/
def afterKeyword (cs : List Char) : Option String :=
  match cs.takeWhile isPySpace with
  | [] => none
  | _ =>
    match cs.dropWhile isPySpace with
    | c :: rest =>
      if isIdentStart c then some (String.mk (c :: rest.takeWhile isWordChar))
      else none
    | [] => none

/-- Try the alternation `(lemma|method)\s+ident` at the current position. -/
def tryKeyword (cs : List Char) : Option (String × String) :=
  if cs.take 5 = "lemma".data then
    match afterKeyword (cs.drop 5) with
    | some nm => some ("lemma", nm)
    | none =>
      if cs.take 6 = "method".data then
        (afterKeyword (cs.drop 6)).map (fun nm => ("method", nm))
      else none
  else
    if cs.take 6 = "method".data then
      (afterKeyword (cs.drop 6)).map (fun nm => ("method", nm))
    else none

/-- Leftmost scan with a word-boundary check against the previous char. -/
def hkScan : Option Char → List Char → Option (String × String)
  | _, [] => none
  | prev, c :: rest =>
    let bOK := match prev with
      | none => true
      | some p => !(isWordChar p)
    match (if bOK then tryKeyword (c :: rest) else none) with
    | some kn => some kn
    | none => hkScan (some c) rest

/-- `_header_kind_name(lines, sl)`: keyword kind and name found on the
declaration line or the line immediately following it; `("", "")` if none. -/
def headerKindName (lines : List String) (sl : Nat) : String × String :=
  let hdr := if sl < lines.length then pyStrip (lines.getD sl "") else ""
  let hdr2 := if sl + 1 < lines.length then pyStrip (lines.getD (sl + 1) "") else ""
  (hkScan none (hdr ++ " " ++ hdr2).data).getD ("", "")

/-! ### `_find_brace_balanced_block` (focus.py lines 47-73) and site discovery -/

/-- Depth scan of `_find_brace_balanced_block`: accumulate the brace delta
from `start` and stop at the first index where it is zero, returning the
index together with `"\n".join(lines[start:i+1])`.  Fuel is the exact
remaining trip count `len(lines) - i`. -/
def fbbScanAux (lines : List String) (start : Nat) : Nat → Nat → Int → Option (Nat × String)
  | 0, _, _ => none
  | n + 1, i, depth =>
    let d := depth + braceDelta (lines.getD i "")
    if d = 0 then some (i, joinLines ((lines.drop start).take (i - start + 1)))
    else fbbScanAux lines start n (i + 1) d

/-- `_find_brace_balanced_block(lines, start_idx)`. -/
def findBraceBalancedBlock (lines : List String) (startIdx : Nat) : Option (Nat × String) :=
  if lines.length ≤ startIdx then none
  else if openCount (lines.getD startIdx "") = 0 then none
  else fbbScanAux lines startIdx (lines.length - startIdx) startIdx 0

/-- Lookahead of the `forall` branch of `_enumerate_sites` (focus.py
lines 133-140): find the first line holding an opening brace within
`range(i, min(i + 5, len(lines)))`, stopping early at a semicolon. -/
def findBraceLineAux (lines : List String) : Nat → Nat → Option Nat
  | _, 0 => none
  | j, n + 1 =>
    if 0 < openCount (lines.getD j "") then some j
    else if (lines.getD j "").data.contains ';' then none
    else findBraceLineAux lines (j + 1) n

/-- See `findBraceLineAux`; fuel is the exact trip count of the `for` loop. -/
def findBraceLine (lines : List String) (i : Nat) : Option Nat :=
  findBraceLineAux lines i (min (i + 5) lines.length - i)

/-- `Site` dataclass (focus.py lines 17-22). -/
structure Site where
  line_idx : Nat
  end_idx : Nat
  kind : String
  original : String
deriving Repr, DecidableEq

/-- The `extract_types` set; one flag per recognised member. -/
structure ExtractTypes where
  hasAssert : Bool
  hasLemmaCall : Bool
  hasCalc : Bool
  hasForall : Bool
deriving Repr, DecidableEq

/-- The default set, used when `extract_types is None`. -/
def defaultExtractTypes : ExtractTypes := ⟨true, true, false, false⟩

/-- Main loop of `_enumerate_sites` (focus.py lines 110-167).  The branch
order (assert, calc, forall, lemma-call) and the fall-through behaviour of
the block branches mirror the Python `continue` structure.  The lemma-call
branch's semantic round trip through the external LSP server — computing
the callee's column, `goto_definition`, `header_contains_lemma` — is the
abstract parameter `isLemmaCall : line index → Bool` (the `col >= 0` guard
is always true since the callee is a substring of the line).  Fuel is
`bend + 2 - i`, an upper bound on the number of loop iterations since `i`
strictly increases and the loop runs only while `i ≤ bend`; the fueled
recursion therefore coincides with the Python `while` loop. -/
def enumAux (lines : List String) (bend : Nat) (et : ExtractTypes)
    (isLemmaCall : Nat → Bool) : Nat → Nat → List Site
  | 0, _ => []
  | n + 1, i =>
    if i ≤ bend then
      let ln := lines.getD i ""
      if et.hasAssert && assertMatch ln then
        ⟨i, i, "assert", ln⟩ :: enumAux lines bend et isLemmaCall n (i + 1)
      else
        match (if et.hasCalc && calcMatch ln then findBraceBalancedBlock lines i else none) with
        | some (e, txt) => ⟨i, e, "calc", txt⟩ :: enumAux lines bend et isLemmaCall n (e + 1)
        | none =>
          match (if et.hasForall && forallMatch ln then
                   match findBraceLine lines i with
                   | some bl => findBraceBalancedBlock lines bl
                   | none => none
                 else none) with
          | some (e, _) =>
            ⟨i, e, "forall", joinLines ((lines.drop i).take (e - i + 1))⟩ ::
              enumAux lines bend et isLemmaCall n (e + 1)
          | none =>
            if et.hasLemmaCall && callMatch ln && isLemmaCall i then
              ⟨i, i, "lemma-call", ln⟩ :: enumAux lines bend et isLemmaCall n (i + 1)
            else enumAux lines bend et isLemmaCall n (i + 1)
    else []

/-- `_enumerate_sites(path, lines, bstart, bend, extract_types)`. -/
def enumerateSites (isLemmaCall : Nat → Bool) (lines : List String)
    (bstart bend : Nat) (et : ExtractTypes) : List Site :=
  enumAux lines bend et isLemmaCall (bend + 2 - bstart) bstart

/-! ### Masking (focus.py lines 169-196) -/

/-- Modelled from the spec: the single masking marker line text
(`CODE_HERE_MARKER` lives in `constants.py`, which is not part of the
sources provided; the spec only requires it to be a fixed single marker
line, so its exact spelling is irrelevant to every claim below). -/
def CODE_HERE_MARKER : String := "<CODE_HERE>"

/-- Leading-whitespace prefix: `line[:len(line) - len(line.lstrip())]`. -/
def indentOf (line : String) : String := String.mk (line.data.takeWhile isPySpace)

/-- `_mask_whole_statement(line)`. -/
def maskWholeStatement (line : String) : String := indentOf line ++ CODE_HERE_MARKER

/-- `_mask_statement_block(lines, start_idx, end_idx)`: replace the span by
the single marker line, via `set` for a single line and Python slice
assignment for a block. -/
def maskStatementBlock (lines : List String) (startIdx endIdx : Nat) : List String :=
  if startIdx = endIdx then
    lines.set startIdx (maskWholeStatement (lines.getD startIdx ""))
  else
    lines.take startIdx ++ [indentOf (lines.getD startIdx "") ++ CODE_HERE_MARKER] ++
      lines.drop (endIdx + 1)

/-- Python string slicing `s[:n]` (report texts are truncated to 100). -/
def pyTake (n : Nat) (s : String) : String := String.mk (s.data.take n)

/-- Modelled from the spec: the round-trip law's inverse operation,
"substituting the recorded original text back at the same position" — the
marker line at `pos` is replaced by the recorded text's lines.  The
repository itself contains no unmasking function, so this is the spec's
described inverse, with the text split at every newline (the exact inverse
of the `"\n".join` that recorded it). -/
def substituteOriginal (doc : List String) (pos : Nat) (txt : String) : List String :=
  doc.take pos ++ splitNL txt ++ doc.drop (pos + 1)

/-! ### `_inject_axiom_in_header` (focus.py lines 198-211) -/

/-- `re.sub(r'\s+', ' ', s)`: every maximal whitespace run becomes one
space; the Boolean state records whether we are inside a run. -/
def collapseWsGo : Bool → List Char → List Char
  | _, [] => []
  | inRun, c :: rest =>
    if isPySpace c then
      if inRun then collapseWsGo true rest else ' ' :: collapseWsGo true rest
    else c :: collapseWsGo false rest

/-- See `collapseWsGo`. -/
def collapseWs (s : String) : String := String.mk (collapseWsGo false s.data)

/-- `if '{' in h: h = h.split('{',1)[0].rstrip()`. -/
def cutAtBrace (s : String) : String :=
  if s.data.contains '\x7b' then
    pyRstrip (String.mk (s.data.takeWhile (fun c => !(c == '\x7b'))))
  else s

/-- Word boundary to the right: next char absent or non-word. -/
def wordBoundaryAfter (cs : List Char) : Bool :=
  match cs with
  | [] => true
  | d :: _ => !(isWordChar d)

/-- Attempt of `lemma\s*\{:\s*([^}]*)\}` at the current position, returning
the captured group and the total matched length. -/
def attrHere (cs : List Char) : Option (String × Nat) :=
  if cs.take 5 = "lemma".data then
    let r1 := cs.drop 5
    let s1 := r1.takeWhile isPySpace
    let r2 := r1.dropWhile isPySpace
    if r2.take 2 = "\x7b:".data then
      let r3 := r2.drop 2
      let s2 := r3.takeWhile isPySpace
      let r4 := r3.dropWhile isPySpace
      let g := r4.takeWhile (fun c => !(c == '\x7d'))
      match r4.dropWhile (fun c => !(c == '\x7d')) with
      | '\x7d' :: _ => some (String.mk g, 5 + s1.length + 2 + s2.length + g.length + 1)
      | _ => none
    else none
  else none

/-- Leftmost `re.search(r'\blemma\s*\{:\s*([^}]*)\}', h)`: position of the
match, captured attribute text, and matched length. -/
def attrScan : Option Char → List Char → Nat → Option (Nat × String × Nat)
  | _, [], _ => none
  | prev, c :: rest, pos =>
    let bOK := match prev with
      | none => true
      | some p => !(isWordChar p)
    match (if bOK then attrHere (c :: rest) else none) with
    | some (g, len) => some (pos, g, len)
    | none => attrScan (some c) rest (pos + 1)

/-- See `attrScan`. -/
def searchLemmaAttr (s : String) : Option (Nat × String × Nat) := attrScan none s.data 0

/-- `re.sub(r'\blemma\b', 'lemma {:axiom}', h, count=1)`: rewrite the
leftmost word-bounded `lemma`. -/
def subLemmaGo : Option Char → List Char → List Char
  | _, [] => []
  | prev, c :: rest =>
    let bOK := match prev with
      | none => true
      | some p => !(isWordChar p)
    if bOK && ((c :: rest).take 5 == "lemma".data) && wordBoundaryAfter ((c :: rest).drop 5) then
      ("lemma \x7b:axiom\x7d").data ++ (c :: rest).drop 5
    else c :: subLemmaGo (some c) rest

/-- `', '.join(parts)`. -/
def joinCommaSp : List String → String
  | [] => ""
  | [x] => x
  | x :: xs => x ++ ", " ++ joinCommaSp xs

/-- `_inject_axiom_in_header(header)`.  Note the attribute-merging branch:
the header is cut at its first opening brace just before the search, so
the searched pattern (which needs a brace) can never occur and the branch
is dead; it is embedded anyway, faithfully to the source.  The comma split
`re.split(r'\s*,\s*', attrs)` composed with the per-part `strip()` is
embedded as a plain comma split followed by the same `strip()`. -/
def injectAxiomInHeader (header : String) : String :=
  let h0 := collapseWs (pyStrip header)
  let h := cutAtBrace h0
  match searchLemmaAttr h with
  | some (pos, g, len) =>
    let attrs := pyStrip g
    let parts := if attrs = "" then [] else (attrs.splitOn ",").map pyStrip
    let parts2 := if parts.contains "axiom" then parts
                  else "axiom" :: parts.filter (fun p => !(p == ""))
    let newAttr := "\x7b:" ++ joinCommaSp parts2 ++ "\x7d"
    String.mk (h.data.take pos) ++ "lemma " ++ newAttr ++ String.mk (h.data.drop (pos + len))
  | none => String.mk (subLemmaGo none h.data)

/-! ### Symbols and span resolution

`document_symbols` (lsp_outline.py) flattens the server's symbol tree into
records carrying a name and a 0-based start/end line, with `-1` standing
for a missing field, exactly as the `int(start.get("line",-1))` defaults.
The external server is a parameter everywhere below: a function
`symsOf : List String → List Sym` giving the symbol table the server would
report for a document with those lines. -/

/-- One flattened document symbol. -/
structure Sym where
  name : String
  sl : Int
  el : Int
deriving Repr, DecidableEq

/-- `_find_target_lemma_range(path, lemma_name, lines)` (focus.py 81-91):
first symbol whose header scans as a `lemma` of the requested name and
whose body bounds resolve; result `(sl, el, bstart, bend)`. -/
def findTargetLemmaRange (syms : List Sym) (lines : List String) (lemmaName : String) :
    Option (Nat × Nat × Nat × Nat) :=
  match syms with
  | [] => none
  | s :: rest =>
    if s.sl < (0 : Int) ∨ s.el < (0 : Int) then findTargetLemmaRange rest lines lemmaName
    else
      if (headerKindName lines s.sl.toNat).1 = "lemma" ∧ s.name = lemmaName then
        match braceBodyBounds lines s.sl.toNat s.el.toNat with
        | some (b1, b2) => some (s.sl.toNat, s.el.toNat, b1, b2)
        | none => findTargetLemmaRange rest lines lemmaName
      else findTargetLemmaRange rest lines lemmaName

/-- `list_lemmas(path)` (focus.py 424-437). -/
def listLemmas (syms : List Sym) (lines : List String) : List String :=
  syms.filterMap fun s =>
    if s.sl < (0 : Int) then none
    else if (headerKindName lines s.sl.toNat).1 = "lemma" then some s.name
    else none

/-! ### `_axiomatize_other_lemmas` (focus.py lines 213-234) -/

/-- One pending header-replacement edit `(sl, be, new_header)`. -/
structure Edit where
  sl : Nat
  be : Nat
  header : String
deriving Repr, DecidableEq

/-- The edit list computed by the first loop of `_axiomatize_other_lemmas`:
for every symbol that scans as a lemma, has body bounds, and whose body does
not overlap the target body span, replace lines `sl..be` by the rewritten
header. -/
def computeEdits (syms : List Sym) (lines : List String) (tgtStart tgtEnd : Nat) :
    List Edit :=
  syms.filterMap fun s =>
    if s.sl < (0 : Int) ∨ s.el < (0 : Int) then none
    else
      let sl := s.sl.toNat
      let el := s.el.toNat
      if (headerKindName lines sl).1 ≠ "lemma" then none
      else
        match braceBodyBounds lines sl el with
        | none => none
        | some (bs, be) =>
          if ¬(be < tgtStart ∨ tgtEnd < bs) then none
          else
            let headerText := joinSp (((lines.drop sl).take (bs + 1 - sl)).map pyStrip)
            some ⟨sl, be, injectAxiomInHeader headerText⟩

/-- Stable descending insertion by start line, matching
`sorted(edits, key=lambda t: t[0], reverse=True)`. -/
def insertEditDesc (e : Edit) : List Edit → List Edit
  | [] => [e]
  | x :: xs => if e.sl < x.sl then x :: insertEditDesc e xs else e :: x :: xs

/-- See `insertEditDesc`. -/
def sortEditsDesc (l : List Edit) : List Edit := l.foldr insertEditDesc []

/-- Python slice assignment `out[sl:be+1] = [h]` (with Python clamping). -/
def replaceSlice (l : List String) (sl be : Nat) (h : String) : List String :=
  l.take sl ++ [h] ++ l.drop (be + 1)

/-- Apply the edits in the sorted (descending) order. -/
def applyEditsDesc (edits : List Edit) (l : List String) : List String :=
  edits.foldl (fun acc e => replaceSlice acc e.sl e.be e.header) l

/-- `_axiomatize_other_lemmas(path, lines, target_body)`. -/
def axiomatizeOtherLemmas (syms : List Sym) (lines : List String) (tgt : Nat × Nat) :
    List String :=
  applyEditsDesc (sortEditsDesc (computeEdits syms lines tgt.1 tgt.2)) lines

/-- The modular-mode preamble shared verbatim by `build_focus_tasks`,
`build_sketch_task` and `minimize_lemma`: resolve the target on the
original text, axiomatize the siblings, and use the rewritten document
(`none` when the target is not found on the original text, which makes
those functions bail out). -/
def lspPrepared (symsOf : List String → List Sym) (lines : List String)
    (lemmaName : String) (modular : Bool) : Option (List String) :=
  if modular then
    match findTargetLemmaRange (symsOf lines) lines lemmaName with
    | none => none
    | some (_, _, b0, e0) => some (axiomatizeOtherLemmas (symsOf lines) lines (b0, e0))
  else some lines

/-! ### `build_focus_tasks` (focus.py lines 328-389) -/

/-- One generated task record. -/
structure Task where
  id : String
  type : String
  program : String
  output : String
deriving Repr, DecidableEq

/-- `"\n" if text.endswith("\n") else ""`. -/
def nlSuffix (hadNL : Bool) : String := if hadNL then "\n" else ""

/-- The task-building loop of `build_focus_tasks` over the site list. -/
def tasksOf (stem lemmaName : String) (lfl : List String) (hadNL : Bool) :
    Nat → List Site → List Task
  | _, [] => []
  | idx, site :: rest =>
    { id := stem ++ "_" ++ lemmaName ++ "_" ++ toString idx
      type := site.kind
      program := joinLines (maskStatementBlock lfl site.line_idx site.end_idx) ++ nlSuffix hadNL
      output := pyStrip site.original } :: tasksOf stem lemmaName lfl hadNL (idx + 1) rest

/-- `build_focus_tasks(path, lemma_name, modular, extract_types)`; `stem` is
`path.stem` and `hadNL` records `text.endswith("\n")`. -/
def buildFocusTasks (symsOf : List String → List Sym)
    (isLemmaCall : List String → Nat → Bool) (stem : String) (lines : List String)
    (hadNL : Bool) (lemmaName : String) (modular : Bool) (et : ExtractTypes) : List Task :=
  match lspPrepared symsOf lines lemmaName modular with
  | none => []
  | some lfl =>
    match findTargetLemmaRange (symsOf lfl) lfl lemmaName with
    | none => []
    | some (_, _, bstart, bend) =>
      let sites := enumerateSites (isLemmaCall lfl) lfl bstart bend et
      tasksOf stem lemmaName lfl hadNL 0 sites

/-- `build_empty_body_file(path, lemma_name, modular)` (focus.py 440-493);
the unused indentation computation of lines 482-486 is dead and omitted. -/
def buildEmptyBodyFile (symsOf : List String → List Sym) (lines : List String)
    (hadNL : Bool) (lemmaName : String) (modular : Bool) : Option String :=
  match findTargetLemmaRange (symsOf lines) lines lemmaName with
  | none => none
  | some (_, _, bstart0, bend0) =>
    let step : Option (List String × Nat × Nat) :=
      if modular then
        let mod := axiomatizeOtherLemmas (symsOf lines) lines (bstart0, bend0)
        match findTargetLemmaRange (symsOf mod) mod lemmaName with
        | none => none
        | some (_, _, b, e) => some (mod, b, e)
      else some (lines, bstart0, bend0)
    match step with
    | none => none
    | some (ls, bstart, bend) =>
      let newLines := if bstart + 1 < bend then ls.take (bstart + 1) ++ ls.drop bend else ls
      some (joinLines newLines ++ nlSuffix hadNL)

/-- `axiomatize_lemmas(input_path, target_lemma, output_path)` (focus.py
392-421), as the text it writes (`none` when it returns `False`). -/
def axiomatizeLemmasText (symsOf : List String → List Sym) (lines : List String)
    (hadNL : Bool) (targetLemma : String) : Option String :=
  match findTargetLemmaRange (symsOf lines) lines targetLemma with
  | none => none
  | some (_, _, bstart, bend) =>
    some (joinLines (axiomatizeOtherLemmas (symsOf lines) lines (bstart, bend)) ++
      nlSuffix hadNL)

/-! ### `minimize.py` -/

/-- Outcome of one `subprocess.run(["dafny", "verify", path], timeout=...)`
call: normal completion with an exit code, `TimeoutExpired`, or any other
raised exception. -/
inductive OracleOutcome where
  | completed (returncode : Int)
  | timedOut
  | raisedError
deriving Repr, DecidableEq

/-- `verify_dafny_file` (minimize.py 17-38): `returncode == 0` on normal
completion, and both `except` arms fold a timeout or any exception into the
negative verdict `False` — the function itself never raises. -/
def verifyDafnyFile : OracleOutcome → Bool
  | .completed rc => rc == 0
  | .timedOut => false
  | .raisedError => false

/-- One per-site entry of the report dictionaries (`line`, `kind`, `text`
truncated to 100 characters). -/
structure SiteRecord where
  line : Nat
  kind : String
  text : String
deriving Repr, DecidableEq

/-- The record appended for a processed site. -/
def siteRecordOf (s : Site) : SiteRecord := ⟨s.line_idx, s.kind, pyTake 100 s.original⟩

/-- `del test_lines[s:e+1]` (with Python clamping). -/
def deleteSlice (l : List String) (s e : Nat) : List String := l.take s ++ l.drop (e + 1)

/-- The index shift applied after a committed removal (minimize.py 162-167):
every site strictly below the removed start moves up by the removed count. -/
def shiftSiteAfter (removed : Site) (k : Nat) (t : Site) : Site :=
  if removed.line_idx < t.line_idx then ⟨t.line_idx - k, t.end_idx - k, t.kind, t.original⟩
  else t

/-- The greedy-removal loop of `minimize_lemma` (minimize.py 133-176) over
the reversed site list.  Python mutates the shared `Site` objects in place;
only the not-yet-processed ones are observable (already-processed sites were
recorded by value), so the shift map is applied to the remaining list.  The
fuel argument equals the length of the site list (the shift map preserves
lengths), so the fueled recursion coincides with the Python `for` loop. -/
def greedyLoopAux (verify : List String → Bool) :
    Nat → List Site → List String → List SiteRecord → List SiteRecord →
    List String × List SiteRecord × List SiteRecord
  | _, [], cur, removedAcc, keptAcc => (cur, removedAcc, keptAcc)
  | 0, _ :: _, cur, removedAcc, keptAcc => (cur, removedAcc, keptAcc)
  | n + 1, site :: rest, cur, removedAcc, keptAcc =>
    let testLines := deleteSlice cur site.line_idx site.end_idx
    if verify testLines then
      greedyLoopAux verify n (rest.map (shiftSiteAfter site (site.end_idx - site.line_idx + 1)))
        testLines (removedAcc ++ [siteRecordOf site]) keptAcc
    else
      greedyLoopAux verify n rest cur removedAcc (keptAcc ++ [siteRecordOf site])

/-- See `greedyLoopAux`. -/
def greedyLoop (verify : List String → Bool) (sites : List Site) (cur : List String)
    (removedAcc keptAcc : List SiteRecord) :
    List String × List SiteRecord × List SiteRecord :=
  greedyLoopAux verify sites.length sites cur removedAcc keptAcc

/-- The `TryEmpty` candidate of `minimize_lemma` (minimize.py 99-103):
`if bend > bstart: empty_lines[bstart+1:bend] = []`. -/
def emptyBodyCandidate (ls : List String) (bstart bend : Nat) : List String :=
  if bstart < bend then ls.take (bstart + 1) ++ ls.drop bend else ls

/-! ### `build_sketch_task` (focus.py lines 236-325) -/

/-- Modelled from the spec: the sketch marker line text
(`SKETCH_HERE_MARKER` lives in `constants.py`, which is not part of the
sources provided; only its being a fixed single marker line matters). -/
def SKETCH_HERE_MARKER : String := "<SKETCH_HERE>"

/-- Stable descending insertion by start line, matching
`sorted(sites, key=lambda s: s.line_idx, reverse=True)` (focus.py 286). -/
def insertSiteDesc (e : Site) : List Site → List Site
  | [] => [e]
  | x :: xs => if e.line_idx < x.line_idx then x :: insertSiteDesc e xs else e :: x :: xs

/-- See `insertSiteDesc`. -/
def sortSitesDesc (l : List Site) : List Site := l.foldr insertSiteDesc []

/-- The site-deletion loop of `build_sketch_task` (focus.py 286-292) over
the descending-sorted sites: delete each span, accumulating the number of
lines deleted at or before `bend`.  Returns the shrunk lines and that
count. -/
def sketchDeleteLoop : List Site → List String → Nat → Nat → List String × Nat
  | [], newLines, deleted, _ => (newLines, deleted)
  | site :: rest, newLines, deleted, bend =>
    sketchDeleteLoop rest (deleteSlice newLines site.line_idx site.end_idx)
      (if site.line_idx ≤ bend then deleted + (site.end_idx - site.line_idx + 1)
       else deleted) bend

/-- The `output` of `build_sketch_task` (focus.py 279-300): the body
interior after deleting all sites, with the body end shifted by the
deletion count.  Python computes `new_bend = bend - deleted` as a possibly
negative int; `Nat` subtraction clamps at 0, which yields the same empty
slice on every in-range input. -/
def sketchOutput (lfl : List String) (bstart bend : Nat) (sites : List Site) : String :=
  joinLines ((((sketchDeleteLoop (sortSitesDesc sites) lfl 0 bend).1).drop
    (bstart + 1)).take ((bend - (sketchDeleteLoop (sortSitesDesc sites) lfl 0 bend).2)
      - (bstart + 1)))

/-- The `program` lines of `build_sketch_task` (focus.py 303-312): collapse
the body interior (`if bend > bstart: del program_lines[bstart+1:bend]`,
the very expression of `emptyBodyCandidate`), then insert the sketch marker
line after the opening brace, indented like the following line when one
exists (`list.insert` with Python clamping is `take ++ [·] ++ drop`). -/
def sketchProgramLines (lfl : List String) (bstart bend : Nat) : List String :=
  (emptyBodyCandidate lfl bstart bend).take (bstart + 1) ++
    [(if bstart + 1 < (emptyBodyCandidate lfl bstart bend).length
        then indentOf ((emptyBodyCandidate lfl bstart bend).getD (bstart + 1) "")
        else "  ") ++ SKETCH_HERE_MARKER] ++
    (emptyBodyCandidate lfl bstart bend).drop (bstart + 1)

/-- `build_sketch_task(path, lemma_name, modular, extract_types)`. -/
def buildSketchTask (symsOf : List String → List Sym)
    (isLemmaCall : List String → Nat → Bool) (stem : String) (lines : List String)
    (hadNL : Bool) (lemmaName : String) (modular : Bool) (et : ExtractTypes) :
    Option Task :=
  match lspPrepared symsOf lines lemmaName modular with
  | none => none
  | some lfl =>
    match findTargetLemmaRange (symsOf lfl) lfl lemmaName with
    | none => none
    | some (_, _, bstart, bend) =>
      if (enumerateSites (isLemmaCall lfl) lfl bstart bend et).isEmpty then none
      else some
        { id := stem ++ "_" ++ lemmaName ++ "_sketch"
          type := "sketch"
          program := joinLines (sketchProgramLines lfl bstart bend) ++ nlSuffix hadNL
          output := sketchOutput lfl bstart bend
            (enumerateSites (isLemmaCall lfl) lfl bstart bend et) }

/-- The four shapes of the dictionary returned by `minimize_lemma`. -/
inductive MinimizeReport where
  | notFound (lemmaName : String)
  | emptyBodySufficient (lemmaName : String)
  | noSites (lemmaName : String)
  | greedy (lemmaName : String) (total removed kept : Nat)
      (removedDetails keptDetails : List SiteRecord)
deriving Repr, DecidableEq

/-- `minimize_lemma(path, lemma_name, modular, extract_types, timeout)`
(minimize.py 41-195).  The oracle parameter stands for materializing the
candidate lines into a fresh temporary file and running `verify_dafny_file`
on it with the configured timeout. -/
def minimizeLemma (symsOf : List String → List Sym)
    (isLemmaCall : List String → Nat → Bool)
    (oracle : List String → OracleOutcome)
    (lines : List String) (lemmaName : String) (modular : Bool) (et : ExtractTypes) :
    List String × MinimizeReport :=
  match lspPrepared symsOf lines lemmaName modular with
  | none => (lines, .notFound lemmaName)
  | some lfl =>
    match findTargetLemmaRange (symsOf lfl) lfl lemmaName with
    | none => (lines, .notFound lemmaName)
    | some (_, _, bstart, bend) =>
      let emptyLines := emptyBodyCandidate lfl bstart bend
      if verifyDafnyFile (oracle emptyLines) then
        (emptyLines, .emptyBodySufficient lemmaName)
      else
        let sites := enumerateSites (isLemmaCall lfl) lfl bstart bend et
        if sites.isEmpty then (lfl, .noSites lemmaName)
        else
          match greedyLoop (fun d => verifyDafnyFile (oracle d)) sites.reverse lfl [] [] with
          | (cur, rem, kept) =>
            (cur, .greedy lemmaName sites.length rem.length kept.length rem kept)

/-- `minimize_file(input_path, output_path, lemmas, modular, extract_types,
timeout)` (minimize.py 198-262), as the text it writes to `output_path`
together with the per-lemma reports; `none` when no lemmas are found (the
error return, which writes nothing).  Each round trips the current lines
through the temporary file written with a forced trailing newline
(line 238), and the final write at line 255 likewise always appends `"\n"`. -/
def minimizeFile (symsOf : List String → List Sym)
    (isLemmaCall : List String → Nat → Bool)
    (oracle : List String → OracleOutcome)
    (lines : List String) (lemmas : Option (List String))
    (modular : Bool) (et : ExtractTypes) : Option (String × List MinimizeReport) :=
  let lems := match lemmas with
    | none => listLemmas (symsOf lines) lines
    | some ls => ls
  if lems.isEmpty then none
  else
    let finalState := lems.foldl
      (fun st nm =>
        let lemLines := pySplitlines (joinLines st.1 ++ "\n")
        let res := minimizeLemma symsOf isLemmaCall oracle lemLines nm modular et
        (res.1, st.2 ++ [res.2]))
      (lines, ([] : List MinimizeReport))
    some (joinLines finalState.1 ++ "\n", finalState.2)

/-! ### `LspClient.request` (lsp.py lines 49-64)

The poll loop of `request` consumes messages from the listener queue one at
a time until the deadline: a message whose `id` equals the request's fresh
id resolves the call (its `result` field if the `"result"` key is present,
otherwise a raised `RuntimeError` with the `error` payload), any other
message is discarded, and deadline expiry raises a `TimeoutError` carrying
captured stderr text.  The embedding replays the loop on the finite list of
messages the listener delivered before the deadline; exhausting the list is
the deadline expiring. -/

/-- A decoded message as `request` sees it: optional `id`, and the payload
under the `"result"` key if present, else under `"error"`. -/
structure RpcMsg (α : Type) where
  id : Option String
  result : Option α
  error : Option α

/-- The three ways `request` can finish. -/
inductive RequestOutcome (α : Type) where
  | ok (v : α)
  | protocolError (details : Option α)
  | timedOut (stderrText : String)

/-- The poll loop of `LspClient.request`. -/
def processResponses {α : Type} (reqId : String) (stderrText : String) :
    List (RpcMsg α) → RequestOutcome α
  | [] => .timedOut stderrText
  | m :: rest =>
    if m.id = some reqId then
      match m.result with
      | some v => .ok v
      | none => .protocolError m.error
    else processResponses reqId stderrText rest

/-! ### Concrete fixtures used by witnesses and counterexamples -/

/-- A lemma whose body holds one indented assertion. -/
def exA : List String :=
  ["lemma A()", "ensures true", "\x7b", "  assert true;", "\x7d"]

/-- The symbol table the server would report for `exA`. -/
def exASyms : List Sym := [⟨"A", 0, 4⟩]

/-- A document whose first declaration's body span is `(0, 3)` but whose
`calc` block, scanned past the body end, only balances at line 4. -/
def exL : List String :=
  ["lemma L() \x7b", "  calc \x7b", "    1;", "  \x7d\x7d", "\x7b", "\x7d"]

/-- Extract set holding only `calc`. -/
def calcOnly : ExtractTypes := ⟨false, false, true, false⟩

/-- A lemma with an empty body. -/
def exM : List String := ["lemma L()", "\x7b", "\x7d"]

/-- The symbol table for `exM`. -/
def exMSyms : List Sym := [⟨"L", 0, 2⟩]

/-- Two sibling lemmas; the second one is the axiomatization target. -/
def exTwo : List String :=
  ["lemma A()", "ensures true", "\x7b", "  assert true;", "\x7d",
   "lemma B()", "ensures true", "\x7b", "  assert true;", "\x7d"]

/-- The symbol table for `exTwo`. -/
def exTwoSyms : List Sym := [⟨"A", 0, 4⟩, ⟨"B", 5, 9⟩]

/-- The modular rewrite of `exTwo` around target `B` (the document
`_axiomatize_other_lemmas` produces for it). -/
def exTwoMod : List String :=
  ["lemma \x7b:axiom\x7d A() ensures true", "lemma B()", "ensures true",
   "\x7b", "  assert true;", "\x7d"]

/-- A symbol oracle consistent on both `exTwo` (10 lines) and its modular
rewrite `exTwoMod` (6 lines, where `B` spans lines 1-5). -/
def exTwoSymsOf : List String → List Sym :=
  fun ls => if ls.length = 10 then exTwoSyms else [⟨"B", 1, 5⟩]

end DafnyTasker

namespace DafnyTasker

theorem mk_data_eq (s : String) : String.mk s.data = s := by
  cases s; rfl

theorem data_newline : ("\n" : String).data = ['\n'] := rfl

theorem getLast?_mem_of_eq {α : Type} {l : List α} {a : α} (h : l.getLast? = some a) :
    a ∈ l := by
  obtain ⟨hne, rfl⟩ := List.mem_getLast?_eq_getLast (Option.mem_def.mpr h)
  exact List.getLast_mem hne

theorem braceDepthN_succ (lines : List String) (b n : Nat) :
    braceDepthN lines b (n + 1) =
      braceDepthN lines b n + braceDelta (lines.getD (b + n) "") := by
  simp [braceDepthN, List.range_succ]

theorem findBraceOpenAux_sound (lines : List String) :
    ∀ n j b, findBraceOpenAux lines j n = some b →
      j ≤ b ∧ b < j + n ∧ closeCount (lines.getD b "") < openCount (lines.getD b "") := by
  intro n
  induction n with
  | zero => intro j b h; simp [findBraceOpenAux] at h
  | succ n ih =>
    intro j b h
    rw [findBraceOpenAux] at h
    split at h
    · obtain rfl : j = b := by injection h
      refine ⟨le_refl _, by omega, ?_⟩
      assumption
    · obtain ⟨h1, h2, h3⟩ := ih (j + 1) b h
      exact ⟨by omega, by omega, h3⟩

theorem scanDepthAux_sound (lines : List String) :
    ∀ n k d e, scanDepthAux lines k n d = some e →
      ∀ b, b ≤ k → d = braceDepthN lines b (k - b) →
      k ≤ e ∧ e < k + n ∧ braceDepth lines b e = 0 ∧
        (∀ m, k ≤ m → m < e → braceDepth lines b m ≠ 0) := by
  intro n
  induction n with
  | zero => intro k d e h; simp [scanDepthAux] at h
  | succ n ih =>
    intro k d e h b hbk hd
    rw [scanDepthAux] at h
    have hstep : d + braceDelta (lines.getD k "") = braceDepthN lines b (k - b + 1) := by
      rw [braceDepthN_succ]
      have : b + (k - b) = k := by omega
      rw [this, hd]
    split at h
    case isTrue hz =>
      have hek : k = e := by injection h
      refine ⟨le_of_eq hek, by omega, ?_, ?_⟩
      · have h1 : e + 1 - b = e - b + 1 := by omega
        rw [braceDepth, h1, ← hek, ← hstep]
        exact hz
      · intro m hm1 hm2; omega
    case isFalse hz =>
      have ih' := ih (k + 1) _ e h b (by omega) (by
        have h1 : k + 1 - b = k - b + 1 := by omega
        rw [h1, ← hstep])
      obtain ⟨h1, h2, h3, h4⟩ := ih'
      refine ⟨by omega, by omega, h3, ?_⟩
      intro m hm1 hm2
      rcases Nat.eq_or_lt_of_le hm1 with heq | hlt
      · have h5 : m + 1 - b = m - b + 1 := by omega
        rw [braceDepth, h5, ← heq, ← hstep]
        exact hz
      · exact h4 m hlt hm2

/-- C1: whenever `_brace_body_bounds` returns a pair `(b, k)`, the running
brace-depth counter accumulated line by line from `b` is exactly zero at `k`
and nonzero at every index strictly between `b` and `k`; and when no balanced
region exists inside the window, it returns `none`. -/
theorem C1_braceBodyBounds_spec (lines : List String) (s e : Nat) :
    (∀ b k, braceBodyBounds lines s e = some (b, k) →
        braceDepth lines b k = 0 ∧ ∀ m, b < m → m < k → braceDepth lines b m ≠ 0) ∧
    ((¬ ∃ b k, BalancedRegion lines s e b k) → braceBodyBounds lines s e = none) := by
  have main : ∀ b k, braceBodyBounds lines s e = some (b, k) →
      BalancedRegion lines s e b k ∧
        (∀ m, b < m → m < k → braceDepth lines b m ≠ 0) := by
    intro b k h
    unfold braceBodyBounds at h
    cases hfo : findBraceOpen lines s (min (e + 1) lines.length) with
    | none => rw [hfo] at h; simp at h
    | some b0 =>
      rw [hfo] at h
      dsimp only at h
      cases hsd : scanDepth lines b0 (min (e + 1) lines.length) 0 with
      | none => rw [hsd] at h; simp at h
      | some k0 =>
        rw [hsd] at h
        simp at h
        obtain ⟨hb, hk⟩ := h
        subst hb; subst hk
        obtain ⟨hjb, hblt, hopen⟩ := findBraceOpenAux_sound lines _ s b0 hfo
        have hsound := scanDepthAux_sound lines _ b0 0 k0 hsd b0 (le_refl b0)
          (by simp [braceDepthN])
        obtain ⟨hke, hkl, hz, hnz⟩ := hsound
        have hblt' : b0 < min (e + 1) lines.length := by omega
        refine ⟨⟨hjb, hke, by omega, hopen, hz⟩, ?_⟩
        intro m hm1 hm2
        exact hnz m (by omega) hm2
  constructor
  · intro b k h
    obtain ⟨⟨_, _, _, _, hz⟩, hnz⟩ := main b k h
    exact ⟨hz, hnz⟩
  · intro hne
    cases hval : braceBodyBounds lines s e with
    | none => rfl
    | some p =>
      obtain ⟨b, k⟩ := p
      exact absurd ⟨b, k, (main b k hval).1⟩ hne

theorem C1_braceBodyBounds_spec_witness :
    braceDepth exBody 0 2 = 0 ∧ braceDepth exBody 0 1 ≠ 0 :=
  ⟨((C1_braceBodyBounds_spec exBody 0 2).1 0 2 (by decide)).1,
   ((C1_braceBodyBounds_spec exBody 0 2).1 0 2 (by decide)).2 1
     (by decide) (by decide)⟩

/-- C8: `LspClient.request` resolves to the `result` field of the first
delivered message whose id matches the request's unique id; a matching
message without a `result` key fails the call with the protocol error
carrying the server's error payload; exhausting the deliveries before the
deadline fails with the timeout error carrying the captured stderr text; and
messages with a non-matching id neither satisfy nor abort the call. -/
theorem C8_request_spec {α : Type} (reqId stderrText : String) :
    (∀ (pre : List (RpcMsg α)) (m : RpcMsg α) (rest : List (RpcMsg α)),
        (∀ x ∈ pre, x.id ≠ some reqId) → m.id = some reqId →
        processResponses reqId stderrText (pre ++ m :: rest) =
          match m.result with
          | some v => .ok v
          | none => .protocolError m.error) ∧
    (∀ msgs : List (RpcMsg α), (∀ x ∈ msgs, x.id ≠ some reqId) →
        processResponses reqId stderrText msgs = .timedOut stderrText) := by
  constructor
  · intro pre m rest hpre hm
    induction pre with
    | nil => simp [processResponses, hm]
    | cons x xs ih =>
      have hx : x.id ≠ some reqId := hpre x (by simp)
      simp only [List.cons_append, processResponses, if_neg hx]
      exact ih (fun y hy => hpre y (by simp [hy]))
  · intro msgs hmsgs
    induction msgs with
    | nil => rfl
    | cons x xs ih =>
      have hx : x.id ≠ some reqId := hmsgs x (by simp)
      simp only [processResponses, if_neg hx]
      exact ih (fun y hy => hmsgs y (by simp [hy]))

theorem C8_request_spec_witness :
    processResponses "r1" "errlog"
        [⟨some "other", none, none⟩, ⟨some "r1", some 5, none⟩,
         ⟨some "r1", some 7, none⟩] = RequestOutcome.ok (5 : Nat) ∧
    processResponses "r1" "errlog"
        ([⟨some "other", none, some 3⟩] : List (RpcMsg Nat)) =
      RequestOutcome.timedOut "errlog" :=
  ⟨(C8_request_spec "r1" "errlog").1 [⟨some "other", none, none⟩]
      ⟨some "r1", some 5, none⟩ [⟨some "r1", some 7, none⟩]
      (by intro x hx; simp at hx; subst hx; simp) rfl,
   (C8_request_spec "r1" "errlog").2 [⟨some "other", none, some 3⟩]
      (by intro x hx; simp at hx; subst hx; simp)⟩

/-- C10: the `TryEmpty` candidate of `minimize_lemma` keeps every line up to
and including the body-opening line, deletes exactly the lines strictly
between the opening-brace line and the closing-brace line, and keeps the
closing-brace line and everything after it; in particular when
`bend ≤ bstart + 1` the candidate is the unmodified input document, so the
empty-body trial verifies the unmodified document. -/
theorem C10_emptyBodyCandidate_spec (ls : List String) (bstart bend : Nat) :
    (bstart < bend → bend < ls.length →
      (emptyBodyCandidate ls bstart bend).length = ls.length - (bend - bstart - 1) ∧
      (∀ i, i ≤ bstart → (emptyBodyCandidate ls bstart bend)[i]? = ls[i]?) ∧
      (∀ j, bend ≤ j → j < ls.length →
        (emptyBodyCandidate ls bstart bend)[bstart + 1 + (j - bend)]? = ls[j]?)) ∧
    (bend ≤ bstart + 1 → emptyBodyCandidate ls bstart bend = ls) := by
  constructor
  · intro h1 h2
    have hsb : bstart + 1 ≤ ls.length := by omega
    rw [emptyBodyCandidate, if_pos h1]
    refine ⟨?_, ?_, ?_⟩
    · simp [List.length_take, List.length_drop]
      omega
    · intro i hi
      rw [List.getElem?_append, if_pos (by simp [List.length_take]; omega),
        List.getElem?_take, if_pos (by omega)]
    · intro j hj1 hj2
      have hlen : (ls.take (bstart + 1)).length = bstart + 1 := by
        simp [List.length_take]; omega
      rw [List.getElem?_append_right (by omega)]
      rw [hlen, List.getElem?_drop]
      congr 1
      omega
  · intro h
    rw [emptyBodyCandidate]
    by_cases hlt : bstart < bend
    · have hb : bend = bstart + 1 := by omega
      rw [if_pos hlt, hb, List.take_append_drop]
    · rw [if_neg hlt]

theorem fbbScanAux_sound (lines : List String) (start : Nat) :
    ∀ n i depth e t, fbbScanAux lines start n i depth = some (e, t) →
      i ≤ e ∧ e < i + n ∧ t = joinLines ((lines.drop start).take (e - start + 1)) := by
  intro n
  induction n with
  | zero => intro i depth e t h; simp [fbbScanAux] at h
  | succ n ih =>
    intro i depth e t h
    rw [fbbScanAux] at h
    split at h
    case isTrue hz =>
      obtain ⟨h1, h2⟩ :
          i = e ∧ joinLines ((lines.drop start).take (i - start + 1)) = t := by
        simpa using h
      subst h1
      exact ⟨le_refl _, by omega, h2.symm⟩
    case isFalse hz =>
      obtain ⟨h1, h2, h3⟩ := ih (i + 1) _ e t h
      exact ⟨by omega, by omega, h3⟩

theorem findBraceBalancedBlock_sound (lines : List String) (start e : Nat) (t : String)
    (h : findBraceBalancedBlock lines start = some (e, t)) :
    start ≤ e ∧ e < lines.length ∧
      t = joinLines ((lines.drop start).take (e - start + 1)) := by
  rw [findBraceBalancedBlock] at h
  split at h
  · simp at h
  · split at h
    · simp at h
    · have hlt : start < lines.length := by omega
      obtain ⟨h1, h2, h3⟩ := fbbScanAux_sound lines start _ start 0 e t h
      exact ⟨h1, by omega, h3⟩

theorem findBraceLineAux_sound (lines : List String) :
    ∀ n j b, findBraceLineAux lines j n = some b → j ≤ b := by
  intro n
  induction n with
  | zero => intro j b h; simp [findBraceLineAux] at h
  | succ n ih =>
    intro j b h
    rw [findBraceLineAux] at h
    split at h
    · injection h with h1; omega
    · split at h
      · simp at h
      · have := ih (j + 1) b h
        omega

theorem findBraceLine_sound (lines : List String) (i b : Nat)
    (h : findBraceLine lines i = some b) : i ≤ b :=
  findBraceLineAux_sound lines _ i b h

theorem assertMatch_empty : assertMatch "" = false := by decide

theorem callMatch_empty : callMatch "" = false := by decide

theorem slice_one (lines : List String) (i : Nat) (h : i < lines.length) :
    joinLines ((lines.drop i).take 1) = lines.getD i "" := by
  rw [List.drop_eq_getElem_cons h]
  simp [joinLines, List.getD_eq_getElem?_getD, List.getElem?_eq_getElem h]

theorem enumAux_wf (lines : List String) (bend : Nat) (et : ExtractTypes)
    (isLC : Nat → Bool) :
    ∀ n i,
      (∀ s ∈ enumAux lines bend et isLC n i,
        i ≤ s.line_idx ∧ s.line_idx ≤ bend ∧ s.line_idx ≤ s.end_idx ∧
        s.end_idx < lines.length ∧
        s.original = joinLines ((lines.drop s.line_idx).take (s.end_idx - s.line_idx + 1))) ∧
      List.Pairwise (fun a b => a.end_idx < b.line_idx) (enumAux lines bend et isLC n i) := by
  intro n
  induction n with
  | zero => intro i; simp [enumAux]
  | succ n ih =>
    intro i
    rw [enumAux]
    by_cases hle : i ≤ bend
    case neg => simp [if_neg hle]
    rw [if_pos hle]
    by_cases hA : (et.hasAssert && assertMatch (lines.getD i "")) = true
    case pos =>
      have hilen : i < lines.length := by
        by_contra hc
        rw [List.getD_eq_default _ _ (by omega), assertMatch_empty] at hA
        simp at hA
      rw [if_pos hA]
      obtain ⟨ihm, ihp⟩ := ih (i + 1)
      constructor
      · intro s hs
        rcases List.mem_cons.mp hs with rfl | hs'
        · refine ⟨le_refl _, hle, le_refl _, hilen, ?_⟩
          simp [slice_one lines i hilen]
        · obtain ⟨a1, a2, a3, a4, a5⟩ := ihm s hs'
          exact ⟨by omega, a2, a3, a4, a5⟩
      · refine List.Pairwise.cons ?_ ihp
        intro s hs
        have := (ihm s hs).1
        simp only
        omega
    case neg =>
      rw [if_neg hA]
      cases hcalc : (if et.hasCalc && calcMatch (lines.getD i "") then
          findBraceBalancedBlock lines i else none) with
      | some p =>
        obtain ⟨e, txt⟩ := p
        have hfbb : findBraceBalancedBlock lines i = some (e, txt) := by
          by_cases hc : (et.hasCalc && calcMatch (lines.getD i "")) = true
          · rwa [if_pos hc] at hcalc
          · rw [if_neg hc] at hcalc; exact absurd hcalc (by simp)
        obtain ⟨he1, he2, he3⟩ := findBraceBalancedBlock_sound lines i e txt hfbb
        dsimp only
        obtain ⟨ihm, ihp⟩ := ih (e + 1)
        constructor
        · intro s hs
          rcases List.mem_cons.mp hs with rfl | hs'
          · exact ⟨le_refl _, hle, he1, he2, he3⟩
          · obtain ⟨a1, a2, a3, a4, a5⟩ := ihm s hs'
            exact ⟨by omega, a2, a3, a4, a5⟩
        · refine List.Pairwise.cons ?_ ihp
          intro s hs
          have := (ihm s hs).1
          simp only
          omega
      | none =>
        dsimp only
        cases hfor : (if et.hasForall && forallMatch (lines.getD i "") then
            match findBraceLine lines i with
            | some bl => findBraceBalancedBlock lines bl
            | none => none
          else none) with
        | some p =>
          obtain ⟨e, txt⟩ := p
          have hble : i ≤ e ∧ e < lines.length := by
            by_cases hc : (et.hasForall && forallMatch (lines.getD i "")) = true
            · rw [if_pos hc] at hfor
              cases hbl : findBraceLine lines i with
              | none => rw [hbl] at hfor; exact absurd hfor (by simp)
              | some bl =>
                rw [hbl] at hfor
                obtain ⟨g1, g2, _⟩ := findBraceBalancedBlock_sound lines bl e txt hfor
                have := findBraceLine_sound lines i bl hbl
                exact ⟨by omega, g2⟩
            · rw [if_neg hc] at hfor; exact absurd hfor (by simp)
          dsimp only
          obtain ⟨ihm, ihp⟩ := ih (e + 1)
          constructor
          · intro s hs
            rcases List.mem_cons.mp hs with rfl | hs'
            · exact ⟨le_refl _, hle, hble.1, hble.2, rfl⟩
            · obtain ⟨a1, a2, a3, a4, a5⟩ := ihm s hs'
              exact ⟨by omega, a2, a3, a4, a5⟩
          · refine List.Pairwise.cons ?_ ihp
            intro s hs
            have := (ihm s hs).1
            simp only
            omega
        | none =>
          dsimp only
          by_cases hC : (et.hasLemmaCall && callMatch (lines.getD i "") && isLC i) = true
          case pos =>
            have hilen : i < lines.length := by
              by_contra hc
              rw [List.getD_eq_default _ _ (by omega), callMatch_empty] at hC
              simp at hC
            rw [if_pos hC]
            obtain ⟨ihm, ihp⟩ := ih (i + 1)
            constructor
            · intro s hs
              rcases List.mem_cons.mp hs with rfl | hs'
              · refine ⟨le_refl _, hle, le_refl _, hilen, ?_⟩
                simp [slice_one lines i hilen]
              · obtain ⟨a1, a2, a3, a4, a5⟩ := ihm s hs'
                exact ⟨by omega, a2, a3, a4, a5⟩
            · refine List.Pairwise.cons ?_ ihp
              intro s hs
              have := (ihm s hs).1
              simp only
              omega
          case neg =>
            rw [if_neg hC]
            obtain ⟨ihm, ihp⟩ := ih (i + 1)
            exact ⟨fun s hs => by
              obtain ⟨a1, a2, a3, a4, a5⟩ := ihm s hs
              exact ⟨by omega, a2, a3, a4, a5⟩, ihp⟩

theorem splitNLCore_append (w : List Char) :
    ∀ (rest acc : List Char), (∀ c ∈ w, c ≠ '\n') →
      splitNLCore (w ++ rest) acc = splitNLCore rest (w.reverse ++ acc) := by
  induction w with
  | nil => intro rest acc _; simp
  | cons c cs ih =>
    intro rest acc hw
    have hc : c ≠ '\n' := hw c (by simp)
    rw [List.cons_append, splitNLCore, if_neg hc,
      ih rest (c :: acc) (fun x hx => hw x (by simp [hx]))]
    simp

theorem splitNL_joinLines (ls : List String) (hne : ls ≠ [])
    (hnl : ∀ l ∈ ls, '\n' ∉ l.data) : splitNL (joinLines ls) = ls := by
  induction ls with
  | nil => exact absurd rfl hne
  | cons l t ih =>
    have hlnl : ∀ c ∈ l.data, c ≠ '\n' := by
      intro c hc heq
      exact hnl l (by simp) (heq ▸ hc)
    cases t with
    | nil =>
      show splitNL (joinLines [l]) = [l]
      have : joinLines [l] = l := rfl
      rw [this, splitNL, show l.data = l.data ++ [] by simp,
        splitNLCore_append l.data [] [] hlnl, splitNLCore]
      simp [mk_data_eq]
    | cons l2 t2 =>
      have hj : joinLines (l :: l2 :: t2) = l ++ "\n" ++ joinLines (l2 :: t2) := rfl
      have hdata : (l ++ "\n" ++ joinLines (l2 :: t2)).data =
          l.data ++ '\n' :: (joinLines (l2 :: t2)).data := by
        rw [String.data_append, String.data_append, data_newline]
        simp
      rw [splitNL, hj, hdata, splitNLCore_append l.data _ [] hlnl, splitNLCore,
        if_pos rfl]
      simp only [List.append_nil, List.reverse_reverse, mk_data_eq]
      rw [show splitNLCore (joinLines (l2 :: t2)).data [] = splitNL (joinLines (l2 :: t2))
            from rfl,
        ih (by simp) (fun x hx => hnl x (by simp [hx]))]

/-- C2 (amended): masking a discovered site and substituting the site's
unstripped original text back at the same position reproduces the original
document. -/
theorem C2_mask_roundTrip (isLC : Nat → Bool) (lines : List String) (bstart bend : Nat)
    (et : ExtractTypes) (hnl : ∀ l ∈ lines, '\n' ∉ l.data) :
    ∀ site ∈ enumerateSites isLC lines bstart bend et,
      substituteOriginal (maskStatementBlock lines site.line_idx site.end_idx)
        site.line_idx site.original = lines := by
  intro site hs
  obtain ⟨h1, h2, h3, h4, h5⟩ :=
    (enumAux_wf lines bend et isLC (bend + 2 - bstart) bstart).1 site hs
  have hs_lt : site.line_idx < lines.length := by omega
  obtain ⟨m, hm⟩ : ∃ m, maskStatementBlock lines site.line_idx site.end_idx =
      lines.take site.line_idx ++ [m] ++ lines.drop (site.end_idx + 1) := by
    rw [maskStatementBlock]
    by_cases hse : site.line_idx = site.end_idx
    · refine ⟨maskWholeStatement (lines.getD site.line_idx ""), ?_⟩
      rw [if_pos hse, List.set_eq_take_append_cons_drop, if_pos hs_lt, ← hse]
      simp
    · exact ⟨_, by rw [if_neg hse]⟩
  have htslen : (lines.take site.line_idx).length = site.line_idx := by
    simp [List.length_take]; omega
  have ht1 : (lines.take site.line_idx ++ [m] ++ lines.drop (site.end_idx + 1)).take
      site.line_idx = lines.take site.line_idx := by
    have h := List.take_left (lines.take site.line_idx)
      ([m] ++ lines.drop (site.end_idx + 1))
    rw [htslen] at h
    rw [List.append_assoc]
    exact h
  have ht2 : (lines.take site.line_idx ++ [m] ++ lines.drop (site.end_idx + 1)).drop
      (site.line_idx + 1) = lines.drop (site.end_idx + 1) := by
    have h := List.drop_left (lines.take site.line_idx ++ [m])
      (lines.drop (site.end_idx + 1))
    have hlen : (lines.take site.line_idx ++ [m]).length = site.line_idx + 1 := by
      simp [htslen]
    rw [hlen] at h
    exact h
  have hblock : splitNL site.original =
      (lines.drop site.line_idx).take (site.end_idx - site.line_idx + 1) := by
    rw [h5]
    apply splitNL_joinLines
    · have hpos :
          0 < ((lines.drop site.line_idx).take (site.end_idx - site.line_idx + 1)).length := by
        simp [List.length_take, List.length_drop]
        omega
      exact List.ne_nil_of_length_pos hpos
    · intro x hx
      exact hnl x (List.mem_of_mem_drop (List.mem_of_mem_take hx))
  rw [substituteOriginal, hm, ht1, ht2, hblock]
  have hdd : (lines.drop site.line_idx).drop (site.end_idx - site.line_idx + 1) =
      lines.drop (site.end_idx + 1) := by
    rw [List.drop_drop]
    congr 1
    omega
  rw [← hdd, List.append_assoc, List.take_append_drop, List.take_append_drop]

theorem C2_mask_roundTrip_witness :
    substituteOriginal (maskStatementBlock exA 3 3) 3 "  assert true;" = exA :=
  C2_mask_roundTrip (fun _ => false) exA 2 4 defaultExtractTypes (by decide)
    ⟨3, 3, "assert", "  assert true;"⟩ (by decide)

/-- C2 (counterexample): the text recorded in the task's `output` field is
`site.original.strip()`, which loses the first line's indentation, so
substituting the recorded output text back at the masked position does not
reproduce the document byte-for-byte. -/
theorem C2_counterexample :
    (buildFocusTasks (fun _ => exASyms) (fun _ _ => false) "f" exA false "A" false
        defaultExtractTypes).map Task.output = ["assert true;"] ∧
    enumerateSites (fun _ => false) exA 2 4 defaultExtractTypes =
      [⟨3, 3, "assert", "  assert true;"⟩] ∧
    substituteOriginal (maskStatementBlock exA 3 3) 3 "assert true;" ≠ exA :=
  ⟨by decide, by decide, by decide⟩

/-- C5 (amended): discovered sites come in strict document order and are
pairwise disjoint, every site starts inside the scanned window
`[bstart, bend]`, spans are well-formed, and every site ends inside the
document — but a block site's end line may exceed `bend`. -/
theorem C5_enumerateSites_spec (isLC : Nat → Bool) (lines : List String)
    (bstart bend : Nat) (et : ExtractTypes) :
    List.Pairwise (fun a b => a.end_idx < b.line_idx)
      (enumerateSites isLC lines bstart bend et) ∧
    ∀ s ∈ enumerateSites isLC lines bstart bend et,
      bstart ≤ s.line_idx ∧ s.line_idx ≤ bend ∧ s.line_idx ≤ s.end_idx ∧
        s.end_idx < lines.length := by
  obtain ⟨hm, hp⟩ := enumAux_wf lines bend et isLC (bend + 2 - bstart) bstart
  exact ⟨hp, fun s hs => by
    obtain ⟨a1, a2, a3, a4, _⟩ := hm s hs
    exact ⟨a1, a2, a3, a4⟩⟩

theorem C5_enumerateSites_spec_witness :
    2 ≤ (3 : Nat) ∧ (3 : Nat) ≤ 4 ∧ (3 : Nat) ≤ 3 ∧ (3 : Nat) < exA.length :=
  (C5_enumerateSites_spec (fun _ => false) exA 2 4 defaultExtractTypes).2
    ⟨3, 3, "assert", "  assert true;"⟩ (by decide)

/-- C5 (counterexample): with the `calc` kind requested, a site's end line
can exceed the scanned body span — here the body span computed by
`_brace_body_bounds` is `(0, 3)` but the discovered `calc` site, whose block
scan runs past the window, ends at line 4. -/
theorem C5_counterexample :
    braceBodyBounds exL 0 5 = some (0, 3) ∧
    ∃ s ∈ enumerateSites (fun _ => false) exL 0 3 calcOnly, 3 < s.end_idx :=
  ⟨by decide, ⟨⟨1, 4, "calc", "  calc \x7b\n    1;\n  \x7d\x7d\n\x7b"⟩, by decide, by decide⟩⟩

theorem deleteSlice_length (l : List String) (s e : Nat) (h1 : s ≤ e)
    (h2 : e < l.length) :
    (deleteSlice l s e).length = l.length - (e - s + 1) := by
  simp [deleteSlice, List.length_take, List.length_drop]
  omega

theorem greedyLoopAux_allFail (verify : List String → Bool)
    (hv : ∀ d, verify d = false) :
    ∀ n (sites : List Site) cur racc kacc, sites.length ≤ n →
      greedyLoopAux verify n sites cur racc kacc =
        (cur, racc, kacc ++ sites.map siteRecordOf) := by
  intro n
  induction n with
  | zero =>
    intro sites cur racc kacc hlen
    have hnil : sites = [] := List.eq_nil_of_length_eq_zero (by omega)
    subst hnil
    simp [greedyLoopAux]
  | succ n ih =>
    intro sites cur racc kacc hlen
    cases sites with
    | nil => simp [greedyLoopAux]
    | cons site rest =>
      rw [greedyLoopAux]
      simp only [hv, Bool.false_eq_true, if_false]
      rw [ih rest cur racc _ (by simp at hlen; omega)]
      simp

theorem greedyLoopAux_master (verify : List String → Bool) :
    ∀ n (sites : List Site) (cur : List String) (racc kacc : List SiteRecord),
      sites.length ≤ n →
      List.Pairwise (fun a b => b.end_idx < a.line_idx) sites →
      (∀ s ∈ sites, s.line_idx ≤ s.end_idx ∧ s.end_idx < cur.length) →
      ∀ out rem kept, greedyLoopAux verify n sites cur racc kacc = (out, rem, kept) →
        rem.length + kept.length = racc.length + kacc.length + sites.length ∧
        ∃ spans : List Nat,
          spans.length + racc.length = rem.length ∧
          spans.Sublist (sites.map fun s => s.end_idx - s.line_idx + 1) ∧
          out.length + spans.sum = cur.length := by
  intro n
  induction n with
  | zero =>
    intro sites cur racc kacc hlen _ _ out rem kept h
    have hnil : sites = [] := List.eq_nil_of_length_eq_zero (by omega)
    subst hnil
    rw [greedyLoopAux] at h
    obtain ⟨rfl, rfl, rfl⟩ : cur = out ∧ racc = rem ∧ kacc = kept := by
      simpa using h
    exact ⟨by simp, [], by simp, by simp, by simp⟩
  | succ n ih =>
    intro sites cur racc kacc hlen hpair hbnd out rem kept h
    cases sites with
    | nil =>
      rw [greedyLoopAux] at h
      obtain ⟨rfl, rfl, rfl⟩ : cur = out ∧ racc = rem ∧ kacc = kept := by
        simpa using h
      exact ⟨by simp, [], by simp, by simp, by simp⟩
    | cons site rest =>
      rw [greedyLoopAux] at h
      have hrl : rest.length ≤ n := by simp at hlen; omega
      have hheadrel : ∀ t ∈ rest, t.end_idx < site.line_idx :=
        fun t ht => List.rel_of_pairwise_cons hpair ht
      obtain ⟨hse, hel⟩ := hbnd site (by simp)
      split at h
      case isTrue hv =>
        have hrest : rest.map (shiftSiteAfter site (site.end_idx - site.line_idx + 1)) =
            rest := by
          refine (List.map_congr_left ?_).trans (List.map_id rest)
          intro t ht
          have h1 := hheadrel t ht
          have h2 := (hbnd t (by simp [ht])).1
          rw [shiftSiteAfter, if_neg (by omega)]
          rfl
        rw [hrest] at h
        have hdel : (deleteSlice cur site.line_idx site.end_idx).length =
            cur.length - (site.end_idx - site.line_idx + 1) :=
          deleteSlice_length cur _ _ hse hel
        have hbnd' : ∀ t ∈ rest, t.line_idx ≤ t.end_idx ∧
            t.end_idx < (deleteSlice cur site.line_idx site.end_idx).length := by
          intro t ht
          refine ⟨(hbnd t (by simp [ht])).1, ?_⟩
          have := hheadrel t ht
          rw [hdel]
          omega
        obtain ⟨hcnt, spans', hsp1, hsp2, hsp3⟩ :=
          ih rest _ (racc ++ [siteRecordOf site]) kacc hrl (hpair.sublist (by simp))
            hbnd' out rem kept h
        refine ⟨by simp at hcnt ⊢; omega,
          (site.end_idx - site.line_idx + 1) :: spans', ?_, ?_, ?_⟩
        · simp at hsp1 ⊢; omega
        · exact hsp2.cons₂ _
        · simp only [List.sum_cons]
          rw [hdel] at hsp3
          omega
      case isFalse hv =>
        obtain ⟨hcnt, spans', hsp1, hsp2, hsp3⟩ :=
          ih rest cur racc (kacc ++ [siteRecordOf site]) hrl (hpair.sublist (by simp))
            (fun t ht => hbnd t (by simp [ht])) out rem kept h
        exact ⟨by simp at hcnt ⊢; omega, spans', hsp1, hsp2.cons _, hsp3⟩

/-- C3: every oracle failure — a nonzero exit code, a timeout, or any raised
error — is folded by `verify_dafny_file` into the boolean negative verdict
`false` and never surfaced; consequently, when every oracle call fails,
`minimize_lemma` completes (it is a total function here), never reports an
empty-body success, removes nothing in the greedy phase
(`statements_removed = 0`, every site kept), and returns its working
document unchanged. -/
theorem C3_oracleFailure_spec :
    (∀ o : OracleOutcome, o ≠ .completed 0 → verifyDafnyFile o = false) ∧
    ∀ (symsOf : List String → List Sym) (isLC : List String → Nat → Bool)
      (oracle : List String → OracleOutcome) (lines : List String) (nm : String)
      (modular : Bool) (et : ExtractTypes),
      (∀ d, verifyDafnyFile (oracle d) = false) →
      (∀ l, (minimizeLemma symsOf isLC oracle lines nm modular et).2 ≠
          MinimizeReport.emptyBodySufficient l) ∧
      (∀ l total removed kept rd kd,
        (minimizeLemma symsOf isLC oracle lines nm modular et).2 =
          MinimizeReport.greedy l total removed kept rd kd →
        removed = 0 ∧ kept = total ∧ rd = []) ∧
      ((minimizeLemma symsOf isLC oracle lines nm modular et).1 = lines ∨
        ∃ lfl, lspPrepared symsOf lines nm modular = some lfl ∧
          (minimizeLemma symsOf isLC oracle lines nm modular et).1 = lfl) := by
  constructor
  · intro o ho
    cases o with
    | completed rc =>
      have : rc ≠ 0 := fun hrc => ho (by rw [hrc])
      simp [verifyDafnyFile, this]
    | timedOut => rfl
    | raisedError => rfl
  · intro symsOf isLC oracle lines nm modular et hv
    cases hp : lspPrepared symsOf lines nm modular with
    | none => simp [minimizeLemma, hp]
    | some lfl =>
      cases hf : findTargetLemmaRange (symsOf lfl) lfl nm with
      | none => simp [minimizeLemma, hp, hf]
      | some q =>
        obtain ⟨sl, el, bstart, bend⟩ := q
        by_cases hsit : (enumerateSites (isLC lfl) lfl bstart bend et).isEmpty
        · refine ⟨?_, ?_, Or.inr ⟨lfl, rfl, ?_⟩⟩ <;>
            simp [minimizeLemma, hp, hf, hv, hsit]
        · have hgl : greedyLoop (fun _ : List String => false)
              (enumerateSites (isLC lfl) lfl bstart bend et).reverse lfl [] [] =
              (lfl, [], [] ++ ((enumerateSites (isLC lfl) lfl bstart bend et).reverse).map
                siteRecordOf) :=
            greedyLoopAux_allFail _ (fun _ => rfl) _ _ _ _ _ (le_refl _)
          refine ⟨?_, ?_, Or.inr ⟨lfl, rfl, ?_⟩⟩ <;>
            simp [minimizeLemma, hp, hf, hv, hsit, hgl]
          intro l total removed kept rd kd h1 h2 h3 h4 h5 h6
          exact ⟨h3.symm, by omega, h5⟩

theorem C3_oracleFailure_spec_witness :
    verifyDafnyFile OracleOutcome.timedOut = false ∧
    verifyDafnyFile (OracleOutcome.completed 1) = false ∧
    verifyDafnyFile OracleOutcome.raisedError = false ∧
    (minimizeLemma (fun _ => exMSyms) (fun _ _ => false) (fun _ => .timedOut)
        exM "L" false defaultExtractTypes).1 = exM := by
  refine ⟨C3_oracleFailure_spec.1 .timedOut (by decide),
    C3_oracleFailure_spec.1 (.completed 1) (by decide),
    C3_oracleFailure_spec.1 .raisedError (by decide), ?_⟩
  have h := (C3_oracleFailure_spec.2 (fun _ => exMSyms) (fun _ _ => false)
    (fun _ => .timedOut) exM "L" false defaultExtractTypes (fun _ => rfl)).2.2
  rcases h with h | ⟨lfl, hl, ho⟩
  · exact h
  · have : lfl = exM := by
      simp [lspPrepared] at hl
      exact hl.symm
    rw [ho, this]

/-- C4: a run of `minimize_lemma` that reaches the greedy-reduction phase
(the target resolved, the empty-body trial failed, at least one site found)
reports `statements_removed + statements_kept = total_statements`, and the
returned document's line count is the starting document's line count minus
the summed spans (`end - start + 1`) of the removed sites — exhibited as a
sublist of the processed sites' span lengths with one entry per removal. -/
theorem C4_greedy_accounting
    (symsOf : List String → List Sym) (isLC : List String → Nat → Bool)
    (oracle : List String → OracleOutcome) (lines : List String) (nm : String)
    (modular : Bool) (et : ExtractTypes) (lfl : List String) (sl el bstart bend : Nat)
    (hprep : lspPrepared symsOf lines nm modular = some lfl)
    (hspan : findTargetLemmaRange (symsOf lfl) lfl nm = some (sl, el, bstart, bend))
    (hempty : verifyDafnyFile (oracle (emptyBodyCandidate lfl bstart bend)) = false)
    (hne : enumerateSites (isLC lfl) lfl bstart bend et ≠ []) :
    ∀ out lemName total removed kept rd kd,
      minimizeLemma symsOf isLC oracle lines nm modular et =
        (out, .greedy lemName total removed kept rd kd) →
      removed + kept = total ∧
      ∃ spans : List Nat,
        spans.length = removed ∧
        spans.Sublist ((enumerateSites (isLC lfl) lfl bstart bend et).reverse.map
          (fun s => s.end_idx - s.line_idx + 1)) ∧
        out.length + spans.sum = lfl.length := by
  intro out lemName total removed kept rd kd hmin
  rcases hgl : greedyLoop (fun d => verifyDafnyFile (oracle d))
      (enumerateSites (isLC lfl) lfl bstart bend et).reverse lfl [] []
    with ⟨cur, rem, kpt⟩
  have hred : minimizeLemma symsOf isLC oracle lines nm modular et =
      (cur, .greedy nm (enumerateSites (isLC lfl) lfl bstart bend et).length
        rem.length kpt.length rem kpt) := by
    simp [minimizeLemma, hprep, hspan, hempty, hgl, hne]
  rw [hred] at hmin
  simp only [Prod.mk.injEq, MinimizeReport.greedy.injEq] at hmin
  obtain ⟨hout, _, htot, hrem, hkpt, hrd, hkd⟩ := hmin
  obtain ⟨hm, hpASC⟩ :=
    enumAux_wf lfl bend et (isLC lfl) (bend + 2 - bstart) bstart
  have hpair : List.Pairwise (fun a b => b.end_idx < a.line_idx)
      (enumerateSites (isLC lfl) lfl bstart bend et).reverse :=
    List.pairwise_reverse.2 hpASC
  have hbnd : ∀ s ∈ (enumerateSites (isLC lfl) lfl bstart bend et).reverse,
      s.line_idx ≤ s.end_idx ∧ s.end_idx < lfl.length := by
    intro s hsrev
    obtain ⟨_, _, a3, a4, _⟩ := hm s (List.mem_reverse.1 hsrev)
    exact ⟨a3, a4⟩
  obtain ⟨hcnt, spans, hs1, hs2, hs3⟩ :=
    greedyLoopAux_master (fun d => verifyDafnyFile (oracle d)) _
      (enumerateSites (isLC lfl) lfl bstart bend et).reverse lfl [] []
      (le_refl _) hpair hbnd cur rem kpt hgl
  have hrevlen : (enumerateSites (isLC lfl) lfl bstart bend et).reverse.length =
      (enumerateSites (isLC lfl) lfl bstart bend et).length := List.length_reverse _
  simp only [List.length_nil, Nat.zero_add, Nat.add_zero] at hcnt hs1
  rw [hrevlen] at hcnt
  refine ⟨by omega, spans, by omega, hs2, ?_⟩
  rw [← hout]
  omega

theorem C4_greedy_accounting_witness :
    (0 : Nat) + 1 = 1 ∧
    ∃ spans : List Nat,
      spans.length = 0 ∧
      spans.Sublist ((enumerateSites (fun _ => false) exA 2 4
        defaultExtractTypes).reverse.map (fun s => s.end_idx - s.line_idx + 1)) ∧
      exA.length + spans.sum = exA.length :=
  C4_greedy_accounting (fun _ => exASyms) (fun _ _ => false) (fun _ => .completed 1)
    exA "A" false defaultExtractTypes exA 0 4 2 4 rfl (by decide) rfl (by decide)
    exA "A" 1 0 1 [] [⟨3, "assert", "  assert true;"⟩] (by decide)

/-- C6: each greedy trial is atomic.  When the oracle rejects the candidate,
the loop continues with the working document unchanged, the untouched
remaining site list, and the site recorded as kept; when the oracle accepts,
the candidate becomes the new working document, the site is recorded as
removed, and exactly the sites whose start line is greater than the removed
site's start are shifted down by the removed line count (the others are left
in place); an accepted removal of a well-formed span shrinks the document by
exactly that span's line count. -/
theorem C6_greedy_atomicity (verify : List String → Bool) (site : Site)
    (rest : List Site) (cur : List String) (racc kacc : List SiteRecord) :
    (verify (deleteSlice cur site.line_idx site.end_idx) = false →
      greedyLoop verify (site :: rest) cur racc kacc =
        greedyLoop verify rest cur racc (kacc ++ [siteRecordOf site])) ∧
    (verify (deleteSlice cur site.line_idx site.end_idx) = true →
      greedyLoop verify (site :: rest) cur racc kacc =
        greedyLoop verify
          (rest.map (shiftSiteAfter site (site.end_idx - site.line_idx + 1)))
          (deleteSlice cur site.line_idx site.end_idx)
          (racc ++ [siteRecordOf site]) kacc ∧
      (∀ t ∈ rest, site.line_idx < t.line_idx →
        shiftSiteAfter site (site.end_idx - site.line_idx + 1) t =
          ⟨t.line_idx - (site.end_idx - site.line_idx + 1),
           t.end_idx - (site.end_idx - site.line_idx + 1), t.kind, t.original⟩) ∧
      (∀ t ∈ rest, ¬ site.line_idx < t.line_idx →
        shiftSiteAfter site (site.end_idx - site.line_idx + 1) t = t) ∧
      (site.line_idx ≤ site.end_idx → site.end_idx < cur.length →
        (deleteSlice cur site.line_idx site.end_idx).length =
          cur.length - (site.end_idx - site.line_idx + 1))) := by
  constructor
  · intro hv
    rw [greedyLoop, greedyLoop, List.length_cons, greedyLoopAux]
    simp only [hv, Bool.false_eq_true, if_false]
  · intro hv
    refine ⟨?_, ?_, ?_, fun h1 h2 => deleteSlice_length cur _ _ h1 h2⟩
    · rw [greedyLoop, greedyLoop, List.length_map, List.length_cons, greedyLoopAux]
      simp only [hv, if_true]
    · intro t _ ht
      rw [shiftSiteAfter, if_pos ht]
    · intro t _ ht
      rw [shiftSiteAfter, if_neg ht]

theorem C6_greedy_atomicity_witness :
    greedyLoop (fun _ => false) [⟨1, 1, "assert", "a"⟩] ["x", "a", "y"] [] [] =
      greedyLoop (fun _ => false) [] ["x", "a", "y"] [] [⟨1, "assert", "a"⟩] :=
  (C6_greedy_atomicity (fun _ => false) ⟨1, 1, "assert", "a"⟩ [] ["x", "a", "y"]
    [] []).1 rfl

theorem replaceSlice_getElem?_lt (l : List String) (sl be : Nat) (h : String) (i : Nat)
    (hi : i < sl) (hil : i < l.length) :
    (replaceSlice l sl be h)[i]? = l[i]? := by
  rw [replaceSlice, List.append_assoc, List.getElem?_append,
    if_pos (by simp [List.length_take]; omega), List.getElem?_take, if_pos hi]

theorem replaceSlice_getElem?_shift (l : List String) (sl be : Nat) (h : String) (p : Nat)
    (hsb : sl ≤ be) (hbl : be < l.length) (hp : be < p) :
    (replaceSlice l sl be h)[p - (be - sl)]? = l[p]? := by
  have hsl_len : (l.take sl).length = sl := by simp [List.length_take]; omega
  rw [replaceSlice,
    List.getElem?_append_right (by simp [hsl_len]; omega),
    show (l.take sl ++ [h]).length = sl + 1 by simp [hsl_len],
    List.getElem?_drop]
  congr 1
  omega

theorem replaceSlice_length (l : List String) (sl be : Nat) (h : String) :
    (replaceSlice l sl be h).length = min sl l.length + 1 + (l.length - (be + 1)) := by
  simp [replaceSlice, List.length_take, List.length_drop]
  omega

theorem insertEditDesc_perm (e : Edit) (l : List Edit) :
    (insertEditDesc e l).Perm (e :: l) := by
  induction l with
  | nil => simp [insertEditDesc]
  | cons x xs ih =>
    rw [insertEditDesc]
    by_cases hc : e.sl < x.sl
    · rw [if_pos hc]
      exact (ih.cons x).trans (List.Perm.swap e x xs)
    · rw [if_neg hc]

theorem sortEditsDesc_perm (l : List Edit) : (sortEditsDesc l).Perm l := by
  induction l with
  | nil => simp [sortEditsDesc]
  | cons x xs ih =>
    show (insertEditDesc x (sortEditsDesc xs)).Perm (x :: xs)
    exact (insertEditDesc_perm x (sortEditsDesc xs)).trans (ih.cons x)

theorem insertEditDesc_sorted (e : Edit) (l : List Edit)
    (hl : l.Pairwise (fun a b => b.sl ≤ a.sl)) :
    (insertEditDesc e l).Pairwise (fun a b => b.sl ≤ a.sl) := by
  induction l with
  | nil => simp [insertEditDesc]
  | cons x xs ih =>
    rw [insertEditDesc]
    obtain ⟨hx, hxs⟩ := List.pairwise_cons.1 hl
    by_cases hc : e.sl < x.sl
    · rw [if_pos hc]
      refine List.pairwise_cons.2 ⟨?_, ih hxs⟩
      intro y hy
      rcases List.mem_cons.1 ((insertEditDesc_perm e xs).mem_iff.1 hy) with rfl | hmem
      · omega
      · exact hx y hmem
    · rw [if_neg hc]
      refine List.pairwise_cons.2 ⟨?_, hl⟩
      intro y hy
      rcases List.mem_cons.1 hy with rfl | hmem
      · omega
      · have := hx y hmem
        omega

theorem sortEditsDesc_sorted (l : List Edit) :
    (sortEditsDesc l).Pairwise (fun a b => b.sl ≤ a.sl) := by
  induction l with
  | nil => simp [sortEditsDesc]
  | cons x xs ih =>
    show (insertEditDesc x (sortEditsDesc xs)).Pairwise _
    exact insertEditDesc_sorted x _ ih

theorem braceBodyBounds_sound (lines : List String) (s e bs be : Nat)
    (h : braceBodyBounds lines s e = some (bs, be)) :
    s ≤ bs ∧ bs ≤ be ∧ be < min (e + 1) lines.length ∧
      closeCount (lines.getD bs "") < openCount (lines.getD bs "") := by
  rw [braceBodyBounds] at h
  cases hfo : findBraceOpen lines s (min (e + 1) lines.length) with
  | none => rw [hfo] at h; simp at h
  | some b0 =>
    rw [hfo] at h
    dsimp only at h
    cases hsd : scanDepth lines b0 (min (e + 1) lines.length) 0 with
    | none => rw [hsd] at h; simp at h
    | some k0 =>
      rw [hsd] at h
      simp at h
      obtain ⟨rfl, rfl⟩ := h
      obtain ⟨hjb, hblt, hopen⟩ := findBraceOpenAux_sound lines _ s b0 hfo
      obtain ⟨hke, hkl, _, _⟩ := scanDepthAux_sound lines _ b0 0 k0 hsd b0 (le_refl b0)
        (by simp [braceDepthN])
      exact ⟨hjb, hke, by omega, hopen⟩

theorem computeEdits_sl_le_be (syms : List Sym) (lines : List String) (ts te : Nat) :
    ∀ e ∈ computeEdits syms lines ts te, e.sl ≤ e.be := by
  intro e he
  rw [computeEdits] at he
  obtain ⟨s, _, hsome⟩ := List.mem_filterMap.1 he
  by_cases h1 : s.sl < (0 : Int) ∨ s.el < (0 : Int)
  · rw [if_pos h1] at hsome; exact absurd hsome (by simp)
  · rw [if_neg h1] at hsome
    dsimp only at hsome
    by_cases h2 : (headerKindName lines s.sl.toNat).1 ≠ "lemma"
    · rw [if_pos h2] at hsome; exact absurd hsome (by simp)
    · rw [if_neg h2] at hsome
      cases hbb : braceBodyBounds lines s.sl.toNat s.el.toNat with
      | none => rw [hbb] at hsome; exact absurd hsome (by simp)
      | some p =>
        obtain ⟨bs, be⟩ := p
        rw [hbb] at hsome
        dsimp only at hsome
        by_cases h3 : ¬(be < ts ∨ te < bs)
        · rw [if_pos h3] at hsome; exact absurd hsome (by simp)
        · rw [if_neg h3] at hsome
          obtain ⟨h4, h5, _⟩ := braceBodyBounds_sound lines s.sl.toNat s.el.toNat bs be hbb
          obtain rfl : Edit.mk s.sl.toNat be (injectAxiomInHeader
              (joinSp (((lines.drop s.sl.toNat).take (bs + 1 - s.sl.toNat)).map pyStrip))) =
              e := by simpa using hsome
          simp only
          omega

theorem applyEditsDesc_frame :
    ∀ (edits : List Edit) (l : List String) (a b : Nat),
      a ≤ b → b < l.length →
      (∀ e ∈ edits, e.sl ≤ e.be ∧ (e.be < a ∨ b < e.sl)) →
      List.Pairwise (fun x y => y.be < x.sl) edits →
      ∃ d, d ≤ a ∧ ∀ i, i ≤ b - a →
        (applyEditsDesc edits l)[a - d + i]? = l[a + i]? := by
  intro edits
  induction edits with
  | nil =>
    intro l a b _ _ _ _
    exact ⟨0, Nat.zero_le _, fun i _ => by simp [applyEditsDesc]⟩
  | cons e rest ih =>
    intro l a b hab hbl hed hpair
    have happ : applyEditsDesc (e :: rest) l =
        applyEditsDesc rest (replaceSlice l e.sl e.be e.header) := rfl
    obtain ⟨hse, hdisj⟩ := hed e (by simp)
    rcases hdisj with hbelow | habove
    · have hsl_lt : e.sl < l.length := by omega
      have hlen' : (replaceSlice l e.sl e.be e.header).length =
          l.length - (e.be - e.sl) := by
        rw [replaceSlice_length, Nat.min_eq_left (le_of_lt hsl_lt)]
        omega
      have hshift : ∀ p, e.be < p → p < l.length →
          (replaceSlice l e.sl e.be e.header)[p - (e.be - e.sl)]? = l[p]? :=
        fun p hp hpl =>
          replaceSlice_getElem?_shift l e.sl e.be e.header p hse (by omega) hp
      have hed' : ∀ x ∈ rest, x.sl ≤ x.be ∧
          (x.be < a - (e.be - e.sl) ∨ b - (e.be - e.sl) < x.sl) := by
        intro x hx
        have hxr := List.rel_of_pairwise_cons hpair hx
        exact ⟨(hed x (by simp [hx])).1, Or.inl (by omega)⟩
      obtain ⟨d', hd'le, hd'⟩ := ih (replaceSlice l e.sl e.be e.header)
        (a - (e.be - e.sl)) (b - (e.be - e.sl)) (by omega) (by omega) hed'
        (hpair.sublist (by simp))
      refine ⟨d' + (e.be - e.sl), by omega, ?_⟩
      intro i hi
      rw [happ]
      have h1 : a - (d' + (e.be - e.sl)) + i = (a - (e.be - e.sl)) - d' + i := by omega
      rw [h1, hd' i (by omega)]
      have h2 : (a - (e.be - e.sl)) + i = (a + i) - (e.be - e.sl) := by omega
      rw [h2, hshift (a + i) (by omega) (by omega)]
    · have hmin : b < min e.sl l.length := by
        rw [Nat.lt_min]
        exact ⟨by omega, hbl⟩
      have hpre : ∀ p, p ≤ b → (replaceSlice l e.sl e.be e.header)[p]? = l[p]? :=
        fun p hp => replaceSlice_getElem?_lt l e.sl e.be e.header p (by omega) (by omega)
      have hlen2 : b < (replaceSlice l e.sl e.be e.header).length := by
        rw [replaceSlice_length]
        omega
      obtain ⟨d', hd'le, hd'⟩ := ih (replaceSlice l e.sl e.be e.header) a b hab hlen2
        (fun x hx => hed x (by simp [hx])) (hpair.sublist (by simp))
      refine ⟨d', hd'le, ?_⟩
      intro i hi
      rw [happ, hd' i hi, hpre (a + i) (by omega)]

/-- C9: axiomatizing all lemmas except the target never changes the
target's own line content — the target's declared range `[a, b]` survives
as a contiguous block of identical lines, shifted up by some `d ≤ a` when
earlier siblings collapse to single header lines.  The hypotheses state
that the server-reported sibling edits are sane: each edit region is
disjoint from the target's range and the edit regions are pairwise
disjoint. -/
theorem C9_axiomatize_frame (syms : List Sym) (lines : List String) (ts te a b : Nat)
    (hab : a ≤ b) (hbl : b < lines.length)
    (hedits : ∀ e ∈ computeEdits syms lines ts te, e.be < a ∨ b < e.sl)
    (hdisj : List.Pairwise (fun x y => x.be < y.sl ∨ y.be < x.sl)
      (computeEdits syms lines ts te)) :
    ∃ d, d ≤ a ∧ ∀ i, i ≤ b - a →
      (axiomatizeOtherLemmas syms lines (ts, te))[a - d + i]? = lines[a + i]? := by
  have hperm := sortEditsDesc_perm (computeEdits syms lines ts te)
  have hsorted := sortEditsDesc_sorted (computeEdits syms lines ts te)
  have hdisj' : List.Pairwise (fun x y => x.be < y.sl ∨ y.be < x.sl)
      (sortEditsDesc (computeEdits syms lines ts te)) :=
    (hperm.pairwise_iff (fun h => h.symm)).2 hdisj
  have hpair : List.Pairwise (fun x y => y.be < x.sl)
      (sortEditsDesc (computeEdits syms lines ts te)) := by
    refine (hsorted.and hdisj').imp_of_mem ?_
    intro x y hx _ hxy
    obtain ⟨h1, h2⟩ := hxy
    have hxx : x.sl ≤ x.be :=
      computeEdits_sl_le_be syms lines ts te x (hperm.mem_iff.1 hx)
    rcases h2 with hc | hc
    · omega
    · exact hc
  obtain ⟨d, hd, hfr⟩ := applyEditsDesc_frame
    (sortEditsDesc (computeEdits syms lines ts te)) lines a b hab hbl
    (fun x hx => ⟨computeEdits_sl_le_be syms lines ts te x (hperm.mem_iff.1 hx),
      hedits x (hperm.mem_iff.1 hx)⟩) hpair
  exact ⟨d, hd, fun i hi => hfr i hi⟩

theorem C9_axiomatize_frame_witness :
    ∃ d, d ≤ 5 ∧ ∀ i, i ≤ 4 →
      (axiomatizeOtherLemmas exTwoSyms exTwo (7, 9))[5 - d + i]? = exTwo[5 + i]? :=
  C9_axiomatize_frame exTwoSyms exTwo 7 9 5 9 (by decide) (by decide) (by decide)
    (by decide)

theorem endsWithNL_append_nl (s : String) : endsWithNL (s ++ "\n") = true := by
  simp [endsWithNL, String.data_append, data_newline]

theorem joinLines_getLast (ls : List String) (hne : ls ≠ [])
    (hnl : ∀ l ∈ ls, '\n' ∉ l.data) (hlast : ls.getLast? ≠ some "") :
    (joinLines ls).data ≠ [] ∧ (joinLines ls).data.getLast? ≠ some '\n' := by
  induction ls with
  | nil => exact absurd rfl hne
  | cons l t ih =>
    cases t with
    | nil =>
      have hl : l ≠ "" := by
        intro hc
        exact hlast (by simp [hc])
      have hjl : joinLines [l] = l := rfl
      constructor
      · rw [hjl]
        intro hc
        have := congrArg String.mk hc
        rw [mk_data_eq] at this
        exact hl this
      · rw [hjl]
        intro hc
        exact hnl l (by simp) (getLast?_mem_of_eq hc)
    | cons l2 t2 =>
      have hdata : (joinLines (l :: l2 :: t2)).data =
          l.data ++ '\n' :: (joinLines (l2 :: t2)).data := by
        have hj : joinLines (l :: l2 :: t2) = l ++ "\n" ++ joinLines (l2 :: t2) := rfl
        rw [hj, String.data_append, String.data_append, data_newline]
        simp
      obtain ⟨ih1, ih2⟩ := ih (by simp) (fun x hx => hnl x (by simp [hx])) (by
        intro hc
        exact hlast (by rw [List.getLast?_cons_cons]; exact hc))
      constructor
      · rw [hdata]
        simp
      · rw [hdata, List.getLast?_append_of_ne_nil _ (by simp)]
        cases hJ : (joinLines (l2 :: t2)).data with
        | nil => exact absurd hJ ih1
        | cons c cs =>
          rw [List.getLast?_cons_cons, ← hJ]
          exact ih2

theorem rewriteText_endsWithNL (ls : List String) (flag : Bool)
    (hnl : ∀ l ∈ ls, '\n' ∉ l.data) (hlast : flag = false → ls.getLast? ≠ some "") :
    endsWithNL (joinLines ls ++ nlSuffix flag) = flag := by
  cases flag with
  | true => exact endsWithNL_append_nl _
  | false =>
    have hsuffix : joinLines ls ++ nlSuffix false = joinLines ls := by
      show joinLines ls ++ "" = joinLines ls
      have : (joinLines ls ++ "").data = (joinLines ls).data := by
        rw [String.data_append]
        simp [show ("" : String).data = [] from rfl]
      have := congrArg String.mk this
      rwa [mk_data_eq, mk_data_eq] at this
    rw [hsuffix]
    cases hls : ls with
    | nil => rfl
    | cons x xs =>
      rw [← hls]
      have := (joinLines_getLast ls (by rw [hls]; simp) hnl (hlast rfl)).2
      simp [endsWithNL]
      intro hc
      exact absurd hc this

theorem getLast?_drop_of_ne_nil (l : List String) (n : Nat) (h : l.drop n ≠ []) :
    (l.drop n).getLast? = l.getLast? := by
  conv_rhs => rw [← List.take_append_drop n l]
  rw [List.getLast?_append_of_ne_nil _ h]

theorem maskStatementBlock_eq (lfl : List String) (s e : Nat) (hs_lt : s < lfl.length) :
    maskStatementBlock lfl s e =
      lfl.take s ++ [indentOf (lfl.getD s "") ++ CODE_HERE_MARKER] ++ lfl.drop (e + 1) := by
  rw [maskStatementBlock]
  by_cases h : s = e
  · rw [if_pos h, List.set_eq_take_append_cons_drop, if_pos hs_lt, ← h]
    simp [maskWholeStatement]
  · rw [if_neg h]

theorem marker_line_props (line : String) (hline : '\n' ∉ line.data) :
    (indentOf line ++ CODE_HERE_MARKER) ≠ "" ∧
      '\n' ∉ (indentOf line ++ CODE_HERE_MARKER).data := by
  constructor
  · intro hc
    have := congrArg String.data hc
    rw [String.data_append] at this
    have hm : CODE_HERE_MARKER.data ≠ [] := by decide
    exact hm (List.append_eq_nil.1 this).2
  · rw [String.data_append]
    intro hc
    rcases List.mem_append.1 hc with hc1 | hc2
    · exact hline ((List.takeWhile_sublist _).mem hc1)
    · exact absurd hc2 (by decide)

theorem marker_line_ne_empty (line : String) :
    (indentOf line ++ CODE_HERE_MARKER) ≠ "" := by
  intro hc
  have := congrArg String.data hc
  rw [String.data_append] at this
  have hm : CODE_HERE_MARKER.data ≠ [] := by decide
  exact hm (List.append_eq_nil.1 this).2

theorem maskStatementBlock_no_nl (lfl : List String) (s e : Nat) (hs_lt : s < lfl.length)
    (hnl : ∀ l ∈ lfl, '\n' ∉ l.data) :
    ∀ l ∈ maskStatementBlock lfl s e, '\n' ∉ l.data := by
  have hsline : lfl.getD s "" ∈ lfl := by
    have : lfl.getD s "" = lfl[s] := by
      simp [List.getD_eq_getElem?_getD, List.getElem?_eq_getElem hs_lt]
    rw [this]
    exact List.getElem_mem hs_lt
  obtain ⟨_, hm2⟩ := marker_line_props (lfl.getD s "") (hnl _ hsline)
  rw [maskStatementBlock_eq lfl s e hs_lt]
  intro l hl
  rcases List.mem_append.1 hl with hl1 | hl2
  · rcases List.mem_append.1 hl1 with hl3 | hl4
    · exact hnl l (List.mem_of_mem_take hl3)
    · rw [List.mem_singleton.1 hl4]
      exact hm2
  · exact hnl l (List.mem_of_mem_drop hl2)

theorem maskStatementBlock_getLast (lfl : List String) (s e : Nat) (hs_lt : s < lfl.length)
    (hlast : lfl.getLast? ≠ some "") :
    (maskStatementBlock lfl s e).getLast? ≠ some "" := by
  have hm1 := marker_line_ne_empty (lfl.getD s "")
  rw [maskStatementBlock_eq lfl s e hs_lt]
  cases hd : lfl.drop (e + 1) with
  | nil =>
    rw [List.append_nil, List.getLast?_append_of_ne_nil _ (by simp)]
    simp only [List.getLast?_singleton]
    intro hc
    exact hm1 (by injection hc)
  | cons c cs =>
    rw [List.getLast?_append_of_ne_nil _ (by simp), ← hd,
      getLast?_drop_of_ne_nil lfl (e + 1) (by rw [hd]; simp)]
    exact hlast

theorem applyEditsDesc_no_nl :
    ∀ (edits : List Edit) (l : List String),
      (∀ x ∈ l, '\n' ∉ x.data) →
      (∀ e ∈ edits, '\n' ∉ e.header.data) →
      ∀ x ∈ applyEditsDesc edits l, '\n' ∉ x.data := by
  intro edits
  induction edits with
  | nil => intro l h1 _; exact h1
  | cons e rest ih =>
    intro l h1 hh
    have happ : applyEditsDesc (e :: rest) l =
        applyEditsDesc rest (replaceSlice l e.sl e.be e.header) := rfl
    have hn1 : ∀ x ∈ replaceSlice l e.sl e.be e.header, '\n' ∉ x.data := by
      intro x hx
      rcases List.mem_append.1 hx with hx1 | hx2
      · rcases List.mem_append.1 hx1 with hx3 | hx4
        · exact h1 x (List.mem_of_mem_take hx3)
        · rw [List.mem_singleton.1 hx4]
          exact hh e (by simp)
      · exact h1 x (List.mem_of_mem_drop hx2)
    rw [happ]
    exact ih (replaceSlice l e.sl e.be e.header) hn1 (fun x hx => hh x (by simp [hx]))

theorem applyEditsDesc_getLast :
    ∀ (edits : List Edit) (l : List String),
      l.getLast? ≠ some "" →
      (∀ e ∈ edits, e.header ≠ "") →
      (applyEditsDesc edits l).getLast? ≠ some "" := by
  intro edits
  induction edits with
  | nil => intro l h2 _; exact h2
  | cons e rest ih =>
    intro l h2 hh
    have happ : applyEditsDesc (e :: rest) l =
        applyEditsDesc rest (replaceSlice l e.sl e.be e.header) := rfl
    have hn2 : (replaceSlice l e.sl e.be e.header).getLast? ≠ some "" := by
      rw [replaceSlice]
      cases hd : l.drop (e.be + 1) with
      | nil =>
        rw [List.append_nil, List.getLast?_append_of_ne_nil _ (by simp)]
        simp only [List.getLast?_singleton]
        intro hc
        exact hh e (by simp) (by injection hc)
      | cons c cs =>
        rw [List.getLast?_append_of_ne_nil _ (by simp), ← hd,
          getLast?_drop_of_ne_nil l (e.be + 1) (by rw [hd]; simp)]
        exact h2
    rw [happ]
    exact ih (replaceSlice l e.sl e.be e.header) hn2 (fun x hx => hh x (by simp [hx]))

theorem findTargetLemmaRange_sound (syms : List Sym) (lines : List String) (nm : String) :
    ∀ sl el bs be, findTargetLemmaRange syms lines nm = some (sl, el, bs, be) →
      sl ≤ bs ∧ bs ≤ be ∧ be < lines.length ∧
        closeCount (lines.getD bs "") < openCount (lines.getD bs "") := by
  induction syms with
  | nil => intro sl el bs be h; simp [findTargetLemmaRange] at h
  | cons s rest ih =>
    intro sl el bs be h
    rw [findTargetLemmaRange] at h
    split at h
    · exact ih sl el bs be h
    · split at h
      · cases hbb : braceBodyBounds lines s.sl.toNat s.el.toNat with
        | none => rw [hbb] at h; exact ih sl el bs be h
        | some p =>
          obtain ⟨b1, b2⟩ := p
          rw [hbb] at h
          obtain ⟨rfl, rfl, rfl, rfl⟩ :
              s.sl.toNat = sl ∧ s.el.toNat = el ∧ b1 = bs ∧ b2 = be := by
            simpa using h
          obtain ⟨g1, g2, g3, g4⟩ :=
            braceBodyBounds_sound lines s.sl.toNat s.el.toNat b1 b2 hbb
          have := Nat.min_le_right (s.el.toNat + 1) lines.length
          exact ⟨g1, g2, by omega, g4⟩
      · exact ih sl el bs be h

theorem tasksOf_program (stem nm : String) (lfl : List String) (hadNL : Bool) :
    ∀ sites idx t, t ∈ tasksOf stem nm lfl hadNL idx sites →
      ∃ site ∈ sites, t.program =
        joinLines (maskStatementBlock lfl site.line_idx site.end_idx) ++
          nlSuffix hadNL := by
  intro sites
  induction sites with
  | nil => intro idx t h; simp [tasksOf] at h
  | cons site rest ih =>
    intro idx t h
    rw [tasksOf] at h
    rcases List.mem_cons.1 h with rfl | hmem
    · exact ⟨site, by simp, rfl⟩
    · obtain ⟨s2, hs2, hp⟩ := ih (idx + 1) t hmem
      exact ⟨s2, by simp [hs2], hp⟩

theorem emptyBodyCandidate_mem (lfl : List String) (a b : Nat) :
    ∀ x ∈ emptyBodyCandidate lfl a b, x ∈ lfl := by
  intro x hx
  rw [emptyBodyCandidate] at hx
  split at hx
  · rcases List.mem_append.1 hx with h1 | h2
    · exact List.mem_of_mem_take h1
    · exact List.mem_of_mem_drop h2
  · exact hx

theorem emptyBodyCandidate_getLast (lfl : List String) (a b : Nat)
    (hb : b < lfl.length) (hlast : lfl.getLast? ≠ some "") :
    (emptyBodyCandidate lfl a b).getLast? ≠ some "" := by
  rw [emptyBodyCandidate]
  split
  · have hdropne : lfl.drop b ≠ [] := by
      intro hc
      rw [List.drop_eq_nil_iff] at hc
      omega
    rw [List.getLast?_append_of_ne_nil _ hdropne, getLast?_drop_of_ne_nil lfl b hdropne]
    exact hlast
  · exact hlast

theorem sketch_marker_ne_empty (indent : String) :
    indent ++ SKETCH_HERE_MARKER ≠ "" := by
  intro hc
  have := congrArg String.data hc
  rw [String.data_append] at this
  have hm : SKETCH_HERE_MARKER.data ≠ [] := by decide
  exact hm (List.append_eq_nil.1 this).2

theorem sketch_marker_no_nl (indent : String) (hi : '\n' ∉ indent.data) :
    '\n' ∉ (indent ++ SKETCH_HERE_MARKER).data := by
  rw [String.data_append]
  intro hc
  rcases List.mem_append.1 hc with hc1 | hc2
  · exact hi hc1
  · exact absurd hc2 (by decide)

theorem sketchProgramLines_no_nl (lfl : List String) (bstart bend : Nat)
    (hnl : ∀ l ∈ lfl, '\n' ∉ l.data) :
    ∀ l ∈ sketchProgramLines lfl bstart bend, '\n' ∉ l.data := by
  have hP0 : ∀ x ∈ emptyBodyCandidate lfl bstart bend, '\n' ∉ x.data :=
    fun x hx => hnl x (emptyBodyCandidate_mem lfl bstart bend x hx)
  intro l hl
  rw [sketchProgramLines] at hl
  rcases List.mem_append.1 hl with hl1 | hl2
  · rcases List.mem_append.1 hl1 with hl3 | hl4
    · exact hP0 l (List.mem_of_mem_take hl3)
    · rw [List.mem_singleton.1 hl4]
      apply sketch_marker_no_nl
      split
      case isTrue hlt =>
        have hg : (emptyBodyCandidate lfl bstart bend).getD (bstart + 1) "" =
            (emptyBodyCandidate lfl bstart bend)[bstart + 1] := by
          simp [List.getD_eq_getElem?_getD, List.getElem?_eq_getElem hlt]
        have hmem : (emptyBodyCandidate lfl bstart bend).getD (bstart + 1) "" ∈
            emptyBodyCandidate lfl bstart bend := by
          rw [hg]
          exact List.getElem_mem hlt
        intro hc
        exact hP0 _ hmem ((List.takeWhile_sublist _).mem hc)
      case isFalse h => decide
  · exact hP0 l (List.mem_of_mem_drop hl2)

theorem sketchProgramLines_getLast (lfl : List String) (bstart bend : Nat)
    (hb : bend < lfl.length) (hlast : lfl.getLast? ≠ some "") :
    (sketchProgramLines lfl bstart bend).getLast? ≠ some "" := by
  rw [sketchProgramLines]
  cases hd : (emptyBodyCandidate lfl bstart bend).drop (bstart + 1) with
  | nil =>
    rw [List.append_nil, List.getLast?_append_of_ne_nil _ (by simp)]
    simp only [List.getLast?_singleton]
    intro hc
    exact sketch_marker_ne_empty _ (by injection hc)
  | cons c cs =>
    rw [List.getLast?_append_of_ne_nil _ (by simp), ← hd,
      getLast?_drop_of_ne_nil _ (bstart + 1) (by rw [hd]; simp)]
    exact emptyBodyCandidate_getLast lfl bstart bend hb hlast

theorem emptyBodyText_endsWithNL (ls : List String) (hadNL : Bool) (bstart bend : Nat)
    (hb : bend < ls.length) (hnl : ∀ l ∈ ls, '\n' ∉ l.data)
    (hlast : hadNL = false → ls.getLast? ≠ some "") :
    endsWithNL (joinLines (if bstart + 1 < bend then
      ls.take (bstart + 1) ++ ls.drop bend else ls) ++ nlSuffix hadNL) = hadNL := by
  by_cases hbb : bstart + 1 < bend
  · rw [if_pos hbb]
    have hdropne : ls.drop bend ≠ [] := by
      intro hc
      rw [List.drop_eq_nil_iff] at hc
      omega
    refine rewriteText_endsWithNL _ hadNL ?_ ?_
    · intro x hx
      rcases List.mem_append.1 hx with hx1 | hx2
      · exact hnl x (List.mem_of_mem_take hx1)
      · exact hnl x (List.mem_of_mem_drop hx2)
    · intro hfl
      rw [List.getLast?_append_of_ne_nil _ hdropne,
        getLast?_drop_of_ne_nil ls bend hdropne]
      exact hlast hfl
  · rw [if_neg hbb]
    exact rewriteText_endsWithNL _ hadNL hnl hlast

/-- C7 (amended): the masked task programs of `build_focus_tasks`, the
sketch program of `build_sketch_task`, the empty-body document of
`build_empty_body_file` (modular or not), and the axiomatized document of
`axiomatize_lemmas` all end with a trailing line terminator exactly when
the original text did (under the stated sanity hypotheses: the rewritten
document's lines hold no embedded newline, a document without a trailing
terminator does not end in an empty line, and — for the axiomatized variant
— the computed replacement headers are nonempty and newline-free); the
document written by `minimize_file`, by contrast, always ends with a
trailing terminator, even when the original text did not. -/
theorem C7_trailing_newline_spec :
    (∀ (symsOf : List String → List Sym) (isLC : List String → Nat → Bool)
        (stem : String) (lines : List String) (hadNL : Bool) (nm : String)
        (modular : Bool) (et : ExtractTypes) (lfl : List String),
      lspPrepared symsOf lines nm modular = some lfl →
      (∀ l ∈ lfl, '\n' ∉ l.data) →
      (hadNL = false → lfl.getLast? ≠ some "") →
      ∀ t ∈ buildFocusTasks symsOf isLC stem lines hadNL nm modular et,
        endsWithNL t.program = hadNL) ∧
    (∀ (symsOf : List String → List Sym) (isLC : List String → Nat → Bool)
        (stem : String) (lines : List String) (hadNL : Bool) (nm : String)
        (modular : Bool) (et : ExtractTypes) (lfl : List String) (t : Task),
      lspPrepared symsOf lines nm modular = some lfl →
      (∀ l ∈ lfl, '\n' ∉ l.data) →
      (hadNL = false → lfl.getLast? ≠ some "") →
      buildSketchTask symsOf isLC stem lines hadNL nm modular et = some t →
      endsWithNL t.program = hadNL) ∧
    (∀ (symsOf : List String → List Sym) (lines : List String) (hadNL : Bool)
        (nm txt : String) (modular : Bool) (lfl : List String),
      lspPrepared symsOf lines nm modular = some lfl →
      (∀ l ∈ lfl, '\n' ∉ l.data) →
      (hadNL = false → lfl.getLast? ≠ some "") →
      buildEmptyBodyFile symsOf lines hadNL nm modular = some txt →
      endsWithNL txt = hadNL) ∧
    (∀ (symsOf : List String → List Sym) (lines : List String) (hadNL : Bool)
        (nm txt : String) (sl el bstart bend : Nat),
      findTargetLemmaRange (symsOf lines) lines nm = some (sl, el, bstart, bend) →
      axiomatizeLemmasText symsOf lines hadNL nm = some txt →
      (∀ l ∈ lines, '\n' ∉ l.data) →
      (hadNL = false → lines.getLast? ≠ some "") →
      (∀ e ∈ computeEdits (symsOf lines) lines bstart bend,
        e.header ≠ "" ∧ '\n' ∉ e.header.data) →
      endsWithNL txt = hadNL) ∧
    (∀ (symsOf : List String → List Sym) (isLC : List String → Nat → Bool)
        (oracle : List String → OracleOutcome) (lines : List String)
        (lemmas : Option (List String)) (modular : Bool) (et : ExtractTypes)
        (txt : String) (reps : List MinimizeReport),
      minimizeFile symsOf isLC oracle lines lemmas modular et = some (txt, reps) →
      endsWithNL txt = true) := by
  refine ⟨?_, ?_, ?_, ?_, ?_⟩
  · intro symsOf isLC stem lines hadNL nm modular et lfl hprep hnl hlast t ht
    rw [buildFocusTasks, hprep] at ht
    dsimp only at ht
    cases hf : findTargetLemmaRange (symsOf lfl) lfl nm with
    | none => rw [hf] at ht; simp at ht
    | some q =>
      obtain ⟨sl, el, bstart, bend⟩ := q
      rw [hf] at ht
      dsimp only at ht
      obtain ⟨site, hsite, hprog⟩ := tasksOf_program stem nm lfl hadNL _ 0 t ht
      obtain ⟨_, _, _, h4, _⟩ :=
        (enumAux_wf lfl bend et (isLC lfl) (bend + 2 - bstart) bstart).1 site hsite
      have hs_lt : site.line_idx < lfl.length := by
        have := (enumAux_wf lfl bend et (isLC lfl) (bend + 2 - bstart) bstart).1
          site hsite
        omega
      rw [hprog]
      exact rewriteText_endsWithNL _ hadNL
        (maskStatementBlock_no_nl lfl site.line_idx site.end_idx hs_lt hnl)
        (fun hfl => maskStatementBlock_getLast lfl site.line_idx site.end_idx hs_lt
          (hlast hfl))
  · intro symsOf isLC stem lines hadNL nm modular et lfl t hprep hnl hlast hbs
    rw [buildSketchTask, hprep] at hbs
    dsimp only at hbs
    cases hf : findTargetLemmaRange (symsOf lfl) lfl nm with
    | none => rw [hf] at hbs; simp at hbs
    | some q =>
      obtain ⟨sl, el, bstart, bend⟩ := q
      rw [hf] at hbs
      dsimp only at hbs
      by_cases hempty : (enumerateSites (isLC lfl) lfl bstart bend et).isEmpty
      · rw [if_pos hempty] at hbs
        simp at hbs
      · rw [if_neg hempty] at hbs
        obtain ⟨g1, g2, g3, g4⟩ := findTargetLemmaRange_sound (symsOf lfl) lfl nm
          sl el bstart bend hf
        obtain rfl : _ = t := Option.some.inj hbs
        exact rewriteText_endsWithNL _ hadNL
          (sketchProgramLines_no_nl lfl bstart bend hnl)
          (fun hfl => sketchProgramLines_getLast lfl bstart bend g3 (hlast hfl))
  · intro symsOf lines hadNL nm txt modular lfl hprep hnl hlast hbe
    rw [buildEmptyBodyFile] at hbe
    cases hf0 : findTargetLemmaRange (symsOf lines) lines nm with
    | none => rw [hf0] at hbe; simp at hbe
    | some q0 =>
      obtain ⟨sl0, el0, b0, e0⟩ := q0
      rw [hf0] at hbe
      dsimp only at hbe
      cases modular with
      | false =>
        have hlfl : lines = lfl := by
          rw [lspPrepared] at hprep
          simpa using hprep
        subst hlfl
        obtain ⟨g1, g2, g3, g4⟩ := findTargetLemmaRange_sound (symsOf lines) lines nm
          sl0 el0 b0 e0 hf0
        have htxt : txt = joinLines (if b0 + 1 < e0 then
            lines.take (b0 + 1) ++ lines.drop e0 else lines) ++ nlSuffix hadNL := by
          simpa using hbe.symm
        rw [htxt]
        exact emptyBodyText_endsWithNL lines hadNL b0 e0 g3 hnl hlast
      | true =>
        have hlfl : axiomatizeOtherLemmas (symsOf lines) lines (b0, e0) = lfl := by
          rw [lspPrepared, hf0] at hprep
          simpa using hprep
        subst hlfl
        cases hf1 : findTargetLemmaRange
            (symsOf (axiomatizeOtherLemmas (symsOf lines) lines (b0, e0)))
            (axiomatizeOtherLemmas (symsOf lines) lines (b0, e0)) nm with
        | none => rw [hf1] at hbe; simp at hbe
        | some q1 =>
          obtain ⟨sl1, el1, b1, e1⟩ := q1
          rw [hf1] at hbe
          obtain ⟨g1, g2, g3, g4⟩ := findTargetLemmaRange_sound
            (symsOf (axiomatizeOtherLemmas (symsOf lines) lines (b0, e0)))
            (axiomatizeOtherLemmas (symsOf lines) lines (b0, e0)) nm
            sl1 el1 b1 e1 hf1
          have htxt : txt = joinLines (if b1 + 1 < e1 then
              (axiomatizeOtherLemmas (symsOf lines) lines (b0, e0)).take (b1 + 1) ++
                (axiomatizeOtherLemmas (symsOf lines) lines (b0, e0)).drop e1
              else axiomatizeOtherLemmas (symsOf lines) lines (b0, e0)) ++
              nlSuffix hadNL := by
            simpa using hbe.symm
          rw [htxt]
          exact emptyBodyText_endsWithNL _ hadNL b1 e1 g3 hnl hlast
  · intro symsOf lines hadNL nm txt sl el bstart bend hf hax hnl hlast hheaders
    rw [axiomatizeLemmasText, hf] at hax
    have htxt : txt = joinLines (axiomatizeOtherLemmas (symsOf lines) lines
        (bstart, bend)) ++ nlSuffix hadNL := by simpa using hax.symm
    rw [htxt]
    have hperm := sortEditsDesc_perm (computeEdits (symsOf lines) lines bstart bend)
    refine rewriteText_endsWithNL _ hadNL ?_ ?_
    · exact applyEditsDesc_no_nl _ lines hnl
        (fun e he => (hheaders e (hperm.mem_iff.1 he)).2)
    · intro hfl
      exact applyEditsDesc_getLast _ lines (hlast hfl)
        (fun e he => (hheaders e (hperm.mem_iff.1 he)).1)
  · intro symsOf isLC oracle lines lemmas modular et txt reps hmf
    unfold minimizeFile at hmf
    dsimp only at hmf
    split at hmf
    · simp at hmf
    · simp only [Option.some.injEq, Prod.mk.injEq] at hmf
      obtain ⟨h1, _⟩ := hmf
      rw [← h1]
      exact endsWithNL_append_nl _

theorem C7_trailing_newline_spec_witness :
    endsWithNL (joinLines (maskStatementBlock exA 3 3) ++ nlSuffix false) = false ∧
    endsWithNL "lemma A()\nensures true\n\x7b\n<SKETCH_HERE>\n\x7d" = false ∧
    endsWithNL
      "lemma \x7b:axiom\x7d A() ensures true\nlemma B()\nensures true\n\x7b\n\x7d" =
      false ∧
    endsWithNL "lemma L()\n\x7b\n\x7d\n" = true := by
  refine ⟨?_, ?_, ?_, ?_⟩
  · exact C7_trailing_newline_spec.1 (fun _ => exASyms) (fun _ _ => false) "f" exA
      false "A" false defaultExtractTypes exA rfl (by decide) (fun _ => by decide)
      ⟨"f_A_0", "assert",
        joinLines (maskStatementBlock exA 3 3) ++ nlSuffix false, "assert true;"⟩
      (by decide)
  · exact C7_trailing_newline_spec.2.1 (fun _ => exASyms) (fun _ _ => false) "f" exA
      false "A" false defaultExtractTypes exA
      ⟨"f_A_sketch", "sketch", "lemma A()\nensures true\n\x7b\n<SKETCH_HERE>\n\x7d", ""⟩
      rfl (by decide) (fun _ => by decide) (by decide)
  · exact C7_trailing_newline_spec.2.2.1 exTwoSymsOf exTwo false "B"
      "lemma \x7b:axiom\x7d A() ensures true\nlemma B()\nensures true\n\x7b\n\x7d"
      true exTwoMod (by decide) (by decide) (fun _ => by decide) (by decide)
  · exact C7_trailing_newline_spec.2.2.2.2 (fun _ => exMSyms) (fun _ _ => false)
      (fun _ => .completed 1) exM none false defaultExtractTypes
      "lemma L()\n\x7b\n\x7d\n" [.noSites "L"] (by decide)

/-- C7 (counterexample): the original text `"lemma L()\n{\n}"` has no
trailing line terminator, yet the document `minimize_file` writes for it
always ends with one — the final write appends `"\n"` unconditionally
(minimize.py line 255), so trailing-newline preservation fails for
`minimize_file`. -/
theorem C7_counterexample :
    endsWithNL (joinLines exM) = false ∧
    minimizeFile (fun _ => exMSyms) (fun _ _ => false) (fun _ => .completed 1) exM
        none false defaultExtractTypes =
      some ("lemma L()\n\x7b\n\x7d\n", [.noSites "L"]) ∧
    endsWithNL "lemma L()\n\x7b\n\x7d\n" = true :=
  ⟨by decide, by decide, by decide⟩

theorem C10_emptyBodyCandidate_spec_witness :
    (emptyBodyCandidate exA 2 4).length = exA.length - 1 ∧
    (emptyBodyCandidate exA 2 4)[2]? = exA[2]? ∧
    (emptyBodyCandidate exA 2 4)[3]? = exA[4]? ∧
    emptyBodyCandidate exM 1 2 = exM :=
  ⟨((C10_emptyBodyCandidate_spec exA 2 4).1 (by decide) (by decide)).1,
   ((C10_emptyBodyCandidate_spec exA 2 4).1 (by decide) (by decide)).2.1 2 (by decide),
   ((C10_emptyBodyCandidate_spec exA 2 4).1 (by decide) (by decide)).2.2 4
     (by decide) (by decide),
   (C10_emptyBodyCandidate_spec exM 1 2).2 (by decide)⟩

end DafnyTasker
